import Mathlib

/-!
Verification development for the PromptCLI streaming / tool-call
orchestration engine (Go).  Strings are modelled as `List Char`
(the Go sources only exercise ASCII in the relevant paths; byte/rune
distinctions are noted where they matter).  Every Go loop is embedded
either by structural recursion on its input list or by an explicit
fuel parameter that is always instantiated large enough for the loop
to run to completion, so that all definitions evaluate by kernel
reduction.
-/

namespace PromptCLI

/-! ## Basic Go string helpers -/

/-- Shorthand turning a Lean string literal into the `List Char` used
throughout this development. -/
def cs (s : String) : List Char := s.data

/-- Whitespace as used by Go `unicode.IsSpace` restricted to ASCII
(`strings.TrimSpace`, `strings.Fields`). -/
def goSpace (c : Char) : Bool :=
  c = ' ' || c = '\t' || c = '\n' || c = '\r' || c = '\x0b' || c = '\x0c'

/-- Whitespace class of Go's `regexp` escape `\s`, namely `[\t\n\f\r ]`. -/
def reSpace (c : Char) : Bool :=
  c = ' ' || c = '\t' || c = '\n' || c = '\x0c' || c = '\r'

/-- JSON whitespace accepted by Go `encoding/json` between tokens. -/
def jsonWs (c : Char) : Bool :=
  c = ' ' || c = '\t' || c = '\n' || c = '\r'

/-- Go `strings.TrimSpace` (ASCII whitespace). -/
def trimSpace (s : List Char) : List Char :=
  ((s.dropWhile goSpace).reverse.dropWhile goSpace).reverse

/-- Go `strings.Fields` (split around runs of whitespace). -/
def goFields : List Char → List (List Char)
  | [] => []
  | c :: rest =>
    if goSpace c then goFields rest
    else
      match goFields rest with
      | [] => [[c]]
      | w :: ws =>
        if goSpace (rest.headD ' ') || rest = [] then [c] :: w :: ws
        else (c :: w) :: ws

/-- Test whether `pat` is a leading fragment of `s` (used to embed the
literal parts of the Go regular expressions). -/
def litAt : List Char → List Char → Bool
  | [], _ => true
  | _ :: _, [] => false
  | p :: ps, c :: rest => p = c && litAt ps rest

/-- Test whether `pat` occurs anywhere inside `s` (Go `strings.Contains`). -/
def containsSub (s pat : List Char) : Bool :=
  match s with
  | [] => litAt pat []
  | _ :: rest => litAt pat s || containsSub rest pat

/-- Lower-case a character list (Go `strings.ToLower`, ASCII). -/
def lowerStr (s : List Char) : List Char := s.map Char.toLower

/-! ## Go `encoding/json` syntax checker / value parser

This embeds the observable behaviour of `json.Unmarshal` on the
strings that `extractJSON` feeds it: the input must be one
syntactically valid JSON value followed only by whitespace, and
unmarshalling into `map[string]interface{}` additionally requires the
value to be an object (or `null`).  Numeric literals are kept
verbatim (their float64 value is never consulted by the claims). -/

/-- Dynamic JSON value (Go `interface{}` shape). -/
inductive GoJson where
  | nullv : GoJson
  | boolv (b : Bool) : GoJson
  | numv (lit : List Char) : GoJson
  | strv (s : List Char) : GoJson
  | arrv (xs : List GoJson) : GoJson
  | objv (kvs : List (List Char × GoJson)) : GoJson

/-- Skip JSON inter-token whitespace. -/
def skipWs (s : List Char) : List Char := s.dropWhile jsonWs

/-- Decode one hex digit. -/
def hexVal (c : Char) : Option Nat :=
  if '0' ≤ c ∧ c ≤ '9' then some (c.toNat - '0'.toNat)
  else if 'a' ≤ c ∧ c ≤ 'f' then some (c.toNat - 'a'.toNat + 10)
  else if 'A' ≤ c ∧ c ≤ 'F' then some (c.toNat - 'A'.toNat + 10)
  else none

/-- Parse the body of a JSON string literal (after the opening quote),
returning the decoded content and the input after the closing quote.
Raw control characters below 0x20 are rejected, as in Go. -/
def parseStrBody : List Char → Option (List Char × List Char)
  | [] => none
  | '"' :: rest => some ([], rest)
  | '\\' :: 'u' :: a :: b :: c :: d :: rest =>
    match hexVal a, hexVal b, hexVal c, hexVal d with
    | some ha, some hb, some hc, some hd =>
      (parseStrBody rest).map
        (fun p => (Char.ofNat (((ha * 16 + hb) * 16 + hc) * 16 + hd) :: p.1, p.2))
    | _, _, _, _ => none
  | '\\' :: e :: rest =>
    match e with
    | '"' => (parseStrBody rest).map (fun p => ('"' :: p.1, p.2))
    | '\\' => (parseStrBody rest).map (fun p => ('\\' :: p.1, p.2))
    | '/' => (parseStrBody rest).map (fun p => ('/' :: p.1, p.2))
    | 'b' => (parseStrBody rest).map (fun p => ('\x08' :: p.1, p.2))
    | 'f' => (parseStrBody rest).map (fun p => ('\x0c' :: p.1, p.2))
    | 'n' => (parseStrBody rest).map (fun p => ('\n' :: p.1, p.2))
    | 'r' => (parseStrBody rest).map (fun p => ('\r' :: p.1, p.2))
    | 't' => (parseStrBody rest).map (fun p => ('\t' :: p.1, p.2))
    | _ => none
  | c :: rest =>
    if c.toNat < 0x20 then none
    else (parseStrBody rest).map (fun p => (c :: p.1, p.2))

/-- Characters that can appear in a JSON number literal. -/
def numChar (c : Char) : Bool :=
  c.isDigit || c = '-' || c = '+' || c = '.' || c = 'e' || c = 'E'

/-- Exponent tail of a JSON number (after `e`/`E`). -/
def vexpTail (s : List Char) : Bool :=
  let s' := match s with
    | '+' :: r => r
    | '-' :: r => r
    | r => r
  decide (s' ≠ []) && s'.all Char.isDigit

/-- Optional exponent part of a JSON number. -/
def vexp : List Char → Bool
  | [] => true
  | 'e' :: r => vexpTail r
  | 'E' :: r => vexpTail r
  | _ => false

/-- Optional fraction-and-exponent part of a JSON number. -/
def vfrac : List Char → Bool
  | '.' :: r =>
    (match r with
     | c :: _ => c.isDigit
     | [] => false) && vexp (r.dropWhile Char.isDigit)
  | r => vexp r

/-- Grammar check for a complete JSON number literal.  The leading
`all numChar` conjunct is redundant on the literals produced by
`parseNum` (they are `takeWhile numChar` runs) and therefore does not
change the embedded behaviour. -/
def validNum (s : List Char) : Bool :=
  s.all numChar &&
  (let s' := match s with
    | '-' :: r => r
    | r => r
   match s' with
   | '0' :: r => vfrac r
   | c :: r => c.isDigit && vfrac (r.dropWhile Char.isDigit)
   | [] => false)

/-- Parse a JSON number: take the maximal run of number characters and
validate it.  On every input this accepts/rejects exactly as Go's
scanner does (Go stops a number at its grammatical end; if the next
character could syntactically continue a number but does not fit the
grammar, both treatments reject). -/
def parseNum (s : List Char) : Option (List Char × List Char) :=
  let lit := s.takeWhile numChar
  if validNum lit then some (lit, s.dropWhile numChar) else none

/-- Task selector for the single fuelled JSON parsing recursion
(`value` parses one value, `elems`/`mems` parse the remainder of an
array / object body, carrying the elements parsed so far). -/
inductive ParseTask where
  | value (s : List Char) : ParseTask
  | elems (acc : List GoJson) (s : List Char) : ParseTask
  | mems (acc : List (List Char × GoJson)) (s : List Char) : ParseTask

/-- Fuelled JSON parser.  `fuel` only bounds the value-nesting /
member-count recursion; each unit of fuel consumes at least one input
character, so `length + 2` fuel always suffices. -/
def parseRec : Nat → ParseTask → Option (GoJson × List Char)
  | 0, _ => none
  | fuel + 1, .value s =>
    match skipWs s with
    | [] => none
    | c :: r =>
      if c = '{' then
        (if (skipWs r).head? = some '}' then some (.objv [], (skipWs r).tail)
         else parseRec fuel (.mems [] (skipWs r)))
      else if c = '[' then
        (if (skipWs r).head? = some ']' then some (.arrv [], (skipWs r).tail)
         else parseRec fuel (.elems [] (skipWs r)))
      else if c = '"' then (parseStrBody r).map (fun p => (.strv p.1, p.2))
      else if litAt (cs "true") (c :: r) then some (.boolv true, r.drop 3)
      else if litAt (cs "false") (c :: r) then some (.boolv false, r.drop 4)
      else if litAt (cs "null") (c :: r) then some (.nullv, r.drop 3)
      else if c = '-' || c.isDigit then
        (parseNum (c :: r)).map (fun p => (.numv p.1, p.2))
      else none
  | fuel + 1, .elems acc s =>
    match parseRec fuel (.value s) with
    | some (v, r) =>
      (if (skipWs r).head? = some ',' then
        parseRec fuel (.elems (acc ++ [v]) (skipWs r).tail)
       else if (skipWs r).head? = some ']' then
        some (.arrv (acc ++ [v]), (skipWs r).tail)
       else none)
    | none => none
  | fuel + 1, .mems acc s =>
    if (skipWs s).head? = some '"' then
      match parseStrBody (skipWs s).tail with
      | some (k, r2) =>
        (if (skipWs r2).head? = some ':' then
          match parseRec fuel (.value (skipWs r2).tail) with
          | some (v, r4) =>
            (if (skipWs r4).head? = some ',' then
              parseRec fuel (.mems (acc ++ [(k, v)]) (skipWs r4).tail)
             else if (skipWs r4).head? = some '}' then
              some (.objv (acc ++ [(k, v)]), (skipWs r4).tail)
             else none)
          | none => none
         else none)
      | none => none
    else none

/-- Parse a whole input as one JSON value followed by whitespace only
(the success condition of Go `json.Unmarshal` at the syntax level). -/
def parseTop (s : List Char) : Option GoJson :=
  match parseRec (s.length + 2) (.value s) with
  | some (g, rest) => if skipWs rest = [] then some g else none
  | none => none

/-- Observable success of Go `json.Unmarshal(data, &js)` for
`js : map[string]interface{}`: valid syntax and a top-level object
(or `null`, which unmarshals into a nil map). -/
def goUnmarshalMapOk (s : List Char) : Bool :=
  match parseTop s with
  | some (.objv _) => true
  | some .nullv => true
  | _ => false

/-- The input is the text of one syntactically valid JSON object. -/
def isJsonObjText (s : List Char) : Bool :=
  match parseTop s with
  | some (.objv _) => true
  | _ => false

/-! ## Trailing-comma normalisation

Embeds the Go `regexp` replacement `reTrailingComma.ReplaceAllString(s, "$1")`
for the pattern `,(\s*[}\]])` from `internal/types/jsonParser.go`
(`ExtractJSON`): every comma followed by optional whitespace and a
closing bracket is dropped, scanning left to right over
non-overlapping matches. -/

/-- Fuelled body of the trailing-comma replacement.  Each step
consumes at least one input character, so fuel `length + 1`
suffices. -/
def tcFixF : Nat → List Char → List Char
  | 0, s => s
  | _ + 1, [] => []
  | fuel + 1, ',' :: rest =>
    let ws := rest.takeWhile reSpace
    let r2 := rest.dropWhile reSpace
    match r2 with
    | c :: r3 =>
      if c = '}' ∨ c = ']' then ws ++ c :: tcFixF fuel r3
      else if c = ',' then ',' :: ws ++ tcFixF fuel r2
      else ',' :: ws ++ c :: tcFixF fuel r3
    | [] => ',' :: ws
  | fuel + 1, c :: rest => c :: tcFixF fuel rest

/-- Go `reTrailingComma.ReplaceAllString(s, "$1")`. -/
def tcFix (s : List Char) : List Char := tcFixF (s.length + 1) s

/-! ## The git-args normaliser `fixGitArgs` (`jsonParser.go`)

Embeds the two `regexp.ReplaceAllStringFunc` passes.  The regular
expressions are specialised into direct scans: a leftmost match of
`"args":\s*\[([^\]]*)\]` (case 1) or `"args":\s*"([^"]*)"` (case 2)
is located literally; scanning resumes after the matched text, and
replacement text is never rescanned, as with Go's `ReplaceAll`. -/

/-- The literal part `"args":` of both patterns. -/
def argsLit : List Char := cs "\"args\":"

/-- Quote one bare argument token; the Go code replaces `"` by `\\"`
inside it (a no-op for case 1 where quoted content is skipped, and
unreachable for case 2 whose content contains no quote). -/
def quoteGitArg (p : List Char) : List Char :=
  '"' :: (p.map (fun c => if c = '"' then ['\\', '\\', '"'] else [c])).flatten ++ ['"']

/-- Go `strings.Join(parts, ", ")`. -/
def joinComma : List (List Char) → List Char
  | [] => []
  | [x] => x
  | x :: y :: xs => x ++ ',' :: ' ' :: joinComma (y :: xs)

/-- Case 1 of `fixGitArgs`: rewrite `"args": [bare words]`. -/
def fga1F : Nat → List Char → List Char
  | 0, s => s
  | _ + 1, [] => []
  | fuel + 1, c :: rest =>
    if litAt argsLit (c :: rest) then
      let afterLit := (c :: rest).drop 7
      let ws := afterLit.takeWhile reSpace
      let r1 := afterLit.dropWhile reSpace
      match r1 with
      | '[' :: r2 =>
        let content := r2.takeWhile (fun x => !(x = ']'))
        let r3 := r2.dropWhile (fun x => !(x = ']'))
        (match r3 with
         | ']' :: r4 =>
           let matched := argsLit ++ ws ++ '[' :: content ++ [']']
           let repl :=
             if containsSub content (cs "\"") || trimSpace content = [] then matched
             else cs "\"args\": [" ++ joinComma ((goFields content).map quoteGitArg) ++ [']']
           repl ++ fga1F fuel r4
         | _ => c :: fga1F fuel rest)
      | _ => c :: fga1F fuel rest
    else c :: fga1F fuel rest

/-- Case 2 of `fixGitArgs`: rewrite `"args": "space separated"`. -/
def fga2F : Nat → List Char → List Char
  | 0, s => s
  | _ + 1, [] => []
  | fuel + 1, c :: rest =>
    if litAt argsLit (c :: rest) then
      let afterLit := (c :: rest).drop 7
      let r1 := afterLit.dropWhile reSpace
      match r1 with
      | '"' :: r2 =>
        let content := r2.takeWhile (fun x => !(x = '"'))
        let r3 := r2.dropWhile (fun x => !(x = '"'))
        (match r3 with
         | '"' :: r4 =>
           (cs "\"args\": [" ++ joinComma ((goFields content).map quoteGitArg) ++ [']'])
             ++ fga2F fuel r4
         | _ => c :: fga2F fuel rest)
      | _ => c :: fga2F fuel rest
    else c :: fga2F fuel rest

/-- Go `fixGitArgs` (`jsonParser.go:151`): case-1 pass, then case-2
pass over its result. -/
def fixGitArgs (s : List Char) : List Char :=
  let s1 := fga1F (s.length + 1) s
  fga2F (s1.length + 1) s1

/-! ## The bracket/string scanners of the two `extractJSON` copies -/

/-- Scanner state of the character loops in both `extractJSON`
implementations: the stack of open brackets (top at the head; Go keeps
the top at the end of a slice), the in-string flag and the
escaped flag. -/
structure ScanSt where
  stack : List Char
  inString : Bool
  isEscaped : Bool
deriving DecidableEq, Repr

/-- Result of one loop iteration of the `internal/types`
`ExtractJSON` scan: the runes written to the builder (`[c]`, or `[]`
for a dropped mismatched closer), whether the iteration reaches the
early-decode check (escape handling and dropped closers `continue`
past it), and the updated scanner state. -/
structure TStep where
  out : List Char
  check : Bool
  st : ScanSt

/-- The quote handling shared by both scan loops: an unescaped `"`
toggles the in-string flag. -/
def qtoggle (st : ScanSt) (c : Char) : ScanSt :=
  if c = '"' then { st with inString := !st.inString } else st

/-- One iteration of the `ExtractJSON` scan loop
(`internal/types/jsonParser.go:235-283`). -/
def scanStepT (st : ScanSt) (c : Char) : TStep :=
  if st.isEscaped then ⟨[c], false, { st with isEscaped := false }⟩
  else if c = '\\' then ⟨[c], false, { st with isEscaped := true }⟩
  else if (qtoggle st c).inString then ⟨[c], true, qtoggle st c⟩
  else if c = '{' then ⟨[c], true, { qtoggle st c with stack := '{' :: (qtoggle st c).stack }⟩
  else if c = '[' then ⟨[c], true, { qtoggle st c with stack := '[' :: (qtoggle st c).stack }⟩
  else if c = '}' then
    (if (qtoggle st c).stack.head? = some '{' then
      ⟨[c], true, { qtoggle st c with stack := (qtoggle st c).stack.tail }⟩
     else ⟨[], false, qtoggle st c⟩)
  else if c = ']' then
    (if (qtoggle st c).stack.head? = some '[' then
      ⟨[c], true, { qtoggle st c with stack := (qtoggle st c).stack.tail }⟩
     else ⟨[], false, qtoggle st c⟩)
  else ⟨[c], true, qtoggle st c⟩

/-- Bracket bookkeeping switch of the root `extractJSON` scan loop
(`jsonParser.go:221-234`), applied to the state after escape and quote
handling; mismatched closers leave the stack unchanged. -/
def bracketR (st1 : ScanSt) (c : Char) : ScanSt :=
  if st1.inString then st1
  else if c = '{' then { st1 with stack := '{' :: st1.stack }
  else if c = '[' then { st1 with stack := '[' :: st1.stack }
  else if c = '}' then
    (if st1.stack.head? = some '{' then { st1 with stack := st1.stack.tail } else st1)
  else if c = ']' then
    (if st1.stack.head? = some '[' then { st1 with stack := st1.stack.tail } else st1)
  else st1

/-- One iteration of the root `extractJSON` scan loop
(`jsonParser.go:212-243`).  Unlike the `internal/types` copy, the
escape flags do not suppress the bracket switch and every rune is
kept. -/
def scanStepR (st : ScanSt) (c : Char) : ScanSt :=
  bracketR
    (if st.isEscaped then { st with isEscaped := false }
     else if c = '\\' then { st with isEscaped := true }
     else qtoggle st c) c

/-- Closing brackets synthesised for a leftover stack, in pop order
(top first), per the close-up loops of both `extractJSON` copies. -/
def closersOf : List Char → List Char
  | [] => []
  | '{' :: tl => '}' :: closersOf tl
  | '[' :: tl => ']' :: closersOf tl
  | _ :: tl => closersOf tl

/-- Drop input up to (and keeping) the first `{`
(Go `strings.Index(s, "{")` plus re-slice); `none` when absent. -/
def dropToBrace : List Char → Option (List Char)
  | [] => none
  | c :: r => if c = '{' then some (c :: r) else dropToBrace r

/-- Scan loop of `internal/types` `ExtractJSON`: either an early
decodable object (`Sum.inl`) or the final scanner state plus the
reversed builder content (`Sum.inr`). -/
def exLoopT : List Char → ScanSt → List Char → (List Char ⊕ ScanSt × List Char)
  | [], st, acc => Sum.inr (st, acc)
  | c :: rest, st, acc =>
    let p := scanStepT st c
    if p.check = true ∧ p.st.stack = [] ∧ p.st.inString = false ∧ c = '}' then
      if goUnmarshalMapOk (tcFix (p.out ++ acc).reverse) then
        Sum.inl (tcFix (p.out ++ acc).reverse)
      else exLoopT rest p.st (p.out ++ acc)
    else exLoopT rest p.st (p.out ++ acc)

/-- Go `ExtractJSON` (`internal/types/jsonParser.go:218-311`).  The
second component embeds the returned `error`, which is `nil` on every
path. -/
def ExtractJSON (s : List Char) : List Char × Option (List Char) :=
  match dropToBrace (trimSpace s) with
  | none => (['{', '}'], none)
  | some s2 =>
    match exLoopT s2 ⟨[], false, false⟩ [] with
    | Sum.inl r => (r, none)
    | Sum.inr (st, acc) =>
      if goUnmarshalMapOk (tcFix (acc.reverse ++ closersOf st.stack ++
          (if st.inString then ['"'] else []))) then
        (tcFix (acc.reverse ++ closersOf st.stack ++
          (if st.inString then ['"'] else [])), none)
      else (['{', '}'], none)

/-- Scan loop of the root `extractJSON`: either an early decodable
prefix (`Sum.inl`) or the final scanner state plus the reversed
consumed input (`Sum.inr`). -/
def exLoopR : List Char → ScanSt → List Char → (List Char ⊕ ScanSt × List Char)
  | [], st, acc => Sum.inr (st, acc)
  | c :: rest, st, acc =>
    let st' := scanStepR st c
    if st'.stack = [] ∧ st'.inString = false ∧ c = '}' then
      if goUnmarshalMapOk (c :: acc).reverse then Sum.inl (c :: acc).reverse
      else exLoopR rest st' (c :: acc)
    else exLoopR rest st' (c :: acc)

/-- Go `extractJSON` (`jsonParser.go:198-265`): `fixGitArgs`, trim,
cut to the first `{`, scan with early decode attempts, then close any
open structures and try once more.  The second component embeds the
returned `error`, which is `nil` on every path. -/
def extractJSONMain (s : List Char) : List Char × Option (List Char) :=
  match dropToBrace (trimSpace (fixGitArgs s)) with
  | none => (['{', '}'], none)
  | some s2 =>
    match exLoopR s2 ⟨[], false, false⟩ [] with
    | Sum.inl r => (r, none)
    | Sum.inr (st, acc) =>
      if goUnmarshalMapOk (acc.reverse ++ closersOf st.stack ++
          (if st.inString then ['"'] else [])) then
        (acc.reverse ++ closersOf st.stack ++
          (if st.inString then ['"'] else []), none)
      else (['{', '}'], none)

/-! ## Structural lemmas about the parser and the scan loops -/

/-- Reversing a list turns its last element into the head. -/
theorem headRev (l : List Char) : l.reverse.head? = l.getLast? := by
  induction l with
  | nil => rfl
  | cons a as ih =>
    rw [List.reverse_cons]
    rcases as with _ | ⟨b, bs⟩
    · rfl
    · rw [List.head?_append_of_ne_nil _ (by simp), ih, List.getLast?_cons_cons]

/-- Consing onto a non-empty list keeps its last element. -/
theorem lastCons (x : Char) (l : List Char) (a : Char)
    (h : l.getLast? = some a) : (x :: l).getLast? = some a := by
  rcases l with _ | ⟨b, bs⟩
  · simp at h
  · rw [List.getLast?_cons_cons]; exact h

/-- Prepending onto a non-empty list keeps its last element. -/
theorem lastAppend (xs l : List Char) (a : Char)
    (h : l.getLast? = some a) : (xs ++ l).getLast? = some a := by
  rw [List.getLast?_append_of_ne_nil _ (by rintro rfl; simp at h)]
  exact h

/-- Results of the object-member parsing task are always objects. -/
theorem parseRec_mems_objv (fuel : Nat) :
    ∀ acc s g r, parseRec fuel (ParseTask.mems acc s) = some (g, r) →
      ∃ kvs, g = GoJson.objv kvs := by
  induction fuel with
  | zero => intro acc s g r h; simp [parseRec] at h
  | succ n ih =>
    intro acc s g r h
    rw [parseRec] at h
    repeat' split at h
    all_goals
      first
      | exact ih _ _ _ _ h
      | (rw [Option.some.injEq, Prod.mk.injEq] at h; exact ⟨_, h.1.symm⟩)
      | simp at h

/-- Unfolding of `parseRec` on input that starts with an open brace. -/
theorem parseRec_value_brace (n : Nat) (r : List Char) :
    parseRec (n + 1) (ParseTask.value ('{' :: r)) =
      (if (skipWs r).head? = some '}' then some (GoJson.objv [], (skipWs r).tail)
       else parseRec n (ParseTask.mems [] (skipWs r))) := rfl

/-- A parse of text that starts with `{` can only produce an object. -/
theorem parseTop_brace_obj (r : List Char) (g : GoJson)
    (h : parseTop ('{' :: r) = some g) : ∃ kvs, g = GoJson.objv kvs := by
  unfold parseTop at h
  rw [show ('{' :: r).length + 2 = (('{' :: r).length + 1) + 1 from rfl,
    parseRec_value_brace] at h
  split at h
  · rename_i g' rest heq
    split at h
    · split at heq
      · rw [Option.some.injEq, Prod.mk.injEq] at heq
        rw [Option.some.injEq] at h
        exact ⟨[], by rw [← h, ← heq.1]⟩
      · obtain ⟨kvs, rfl⟩ := parseRec_mems_objv _ _ _ _ _ heq
        rw [Option.some.injEq] at h
        exact ⟨kvs, h.symm⟩
    · simp at h
  · simp at h

/-- A string that unmarshals into a Go map and starts with `{` is the
text of a JSON object (the `null` alternative is excluded). -/
theorem goUnmarshal_head_obj (s : List Char) (h : goUnmarshalMapOk s = true)
    (hh : s.head? = some '{') : isJsonObjText s = true := by
  rcases s with _ | ⟨c, r⟩
  · simp at hh
  · have hc : c = '{' := by simpa using hh
    subst hc
    unfold goUnmarshalMapOk at h
    unfold isJsonObjText
    rcases hp : parseTop ('{' :: r) with _ | g
    · rw [hp] at h; simp at h
    · obtain ⟨kvs, rfl⟩ := parseTop_brace_obj r g hp
      rfl

/-- `tcFix` keeps a leading open brace. -/
theorem tcFix_head_brace (l : List Char) (h : l.head? = some '{') :
    (tcFix l).head? = some '{' := by
  rcases l with _ | ⟨c, rest⟩
  · simp at h
  · have hc : c = '{' := by simpa using h
    subst hc
    simp [tcFix, tcFixF]

/-- Early returns of the `ExtractJSON` scan loop passed the unmarshal
check and retain the leading brace of the builder content. -/
theorem exLoopT_inl (l : List Char) :
    ∀ st acc r, acc.getLast? = some '{' →
      exLoopT l st acc = Sum.inl r →
      goUnmarshalMapOk r = true ∧ r.head? = some '{' := by
  induction l with
  | nil => intro st acc r _ h; simp [exLoopT] at h
  | cons c rest ih =>
    intro st acc r hacc h
    rw [exLoopT] at h
    have hacc' : ((scanStepT st c).out ++ acc).getLast? = some '{' :=
      lastAppend _ _ _ hacc
    split at h
    · split at h
      · rename_i hcond hok
        rw [Sum.inl.injEq] at h
        refine ⟨by rw [h] at hok; exact hok, ?_⟩
        rw [← h]
        exact tcFix_head_brace _ (by rw [headRev]; exact hacc')
      · exact ih _ _ _ hacc' h
    · exact ih _ _ _ hacc' h

/-- When the `ExtractJSON` scan loop reaches end of input, the builder
content still ends with the leading brace at its bottom. -/
theorem exLoopT_inr_last (l : List Char) :
    ∀ st acc st' acc', acc.getLast? = some '{' →
      exLoopT l st acc = Sum.inr (st', acc') →
      acc'.getLast? = some '{' := by
  induction l with
  | nil =>
    intro st acc st' acc' hacc h
    rw [exLoopT] at h
    rw [Sum.inr.injEq, Prod.mk.injEq] at h
    rw [← h.2]; exact hacc
  | cons c rest ih =>
    intro st acc st' acc' hacc h
    have hacc' : ((scanStepT st c).out ++ acc).getLast? = some '{' :=
      lastAppend _ _ _ hacc
    rw [exLoopT] at h
    split at h
    · split at h
      · simp at h
      · exact ih _ _ _ _ hacc' h
    · exact ih _ _ _ _ hacc' h

/-- Early returns of the root `extractJSON` scan loop passed the
unmarshal check and retain the leading brace. -/
theorem exLoopR_inl (l : List Char) :
    ∀ st acc r, acc.getLast? = some '{' →
      exLoopR l st acc = Sum.inl r →
      goUnmarshalMapOk r = true ∧ r.head? = some '{' := by
  induction l with
  | nil => intro st acc r _ h; simp [exLoopR] at h
  | cons c rest ih =>
    intro st acc r hacc h
    have hacc' : (c :: acc).getLast? = some '{' := lastCons _ _ _ hacc
    rw [exLoopR] at h
    split at h
    · split at h
      · rename_i hcond hok
        rw [Sum.inl.injEq] at h
        refine ⟨by rw [h] at hok; exact hok, ?_⟩
        rw [← h, headRev]
        exact hacc'
      · exact ih _ _ _ hacc' h
    · exact ih _ _ _ hacc' h

/-- When the root scan loop reaches end of input, the consumed prefix
still ends with the leading brace at its bottom. -/
theorem exLoopR_inr_last (l : List Char) :
    ∀ st acc st' acc', acc.getLast? = some '{' →
      exLoopR l st acc = Sum.inr (st', acc') →
      acc'.getLast? = some '{' := by
  induction l with
  | nil =>
    intro st acc st' acc' hacc h
    rw [exLoopR] at h
    rw [Sum.inr.injEq, Prod.mk.injEq] at h
    rw [← h.2]; exact hacc
  | cons c rest ih =>
    intro st acc st' acc' hacc h
    have hacc' : (c :: acc).getLast? = some '{' := lastCons _ _ _ hacc
    rw [exLoopR] at h
    split at h
    · split at h
      · simp at h
      · exact ih _ _ _ _ hacc' h
    · exact ih _ _ _ _ hacc' h

/-- `dropToBrace` returns a list that starts with `{`. -/
theorem dropToBrace_head (s : List Char) :
    ∀ t, dropToBrace s = some t → ∃ r, t = '{' :: r := by
  induction s with
  | nil => intro t h; simp [dropToBrace] at h
  | cons c rest ih =>
    intro t h
    rw [dropToBrace] at h
    split at h
    · rename_i hc
      exact ⟨rest, by rw [Option.some.injEq] at h; rw [← h, hc]⟩
    · exact ih _ h

/-- The fallback text of both parsers is a valid JSON object. -/
theorem objBase : isJsonObjText ['{', '}'] = true := by decide

/-- First step of the `ExtractJSON` scan on the leading brace. -/
theorem exLoopT_first (r : List Char) :
    exLoopT ('{' :: r) ⟨[], false, false⟩ [] =
      exLoopT r ⟨['{'], false, false⟩ ['{'] := rfl

/-- First step of the root `extractJSON` scan on the leading brace. -/
theorem exLoopR_first (r : List Char) :
    exLoopR ('{' :: r) ⟨[], false, false⟩ [] =
      exLoopR r ⟨['{'], false, false⟩ ['{'] := rfl

/-- Every exit path of the `internal/types` `ExtractJSON` returns a
nil error and a valid JSON object text. -/
theorem ExtractJSON_ok (s : List Char) :
    (ExtractJSON s).2 = none ∧ isJsonObjText (ExtractJSON s).1 = true := by
  unfold ExtractJSON
  rcases hdb : dropToBrace (trimSpace s) with _ | s2
  · exact ⟨rfl, objBase⟩
  · obtain ⟨r, rfl⟩ := dropToBrace_head _ _ hdb
    dsimp only
    rw [exLoopT_first]
    split
    · rename_i rr hex
      obtain ⟨hok, hhead⟩ :=
        exLoopT_inl r ⟨['{'], false, false⟩ ['{'] rr (by decide) hex
      exact ⟨rfl, goUnmarshal_head_obj rr hok hhead⟩
    · rename_i st acc hex
      have hlast : acc.getLast? = some '{' :=
        exLoopT_inr_last r ⟨['{'], false, false⟩ ['{'] st acc (by decide) hex
      have haccne : acc.reverse ≠ [] := by
        intro hn
        rw [List.reverse_eq_nil_iff] at hn
        rw [hn] at hlast; simp at hlast
      have hhead : (acc.reverse ++ closersOf st.stack ++
          (if st.inString then ['"'] else [])).head? = some '{' := by
        rw [List.append_assoc, List.head?_append_of_ne_nil _ haccne, headRev]
        exact hlast
      by_cases hok : goUnmarshalMapOk (tcFix (acc.reverse ++ closersOf st.stack ++
          (if st.inString then ['"'] else []))) = true
      · rw [if_pos hok]
        exact ⟨rfl, goUnmarshal_head_obj _ hok (tcFix_head_brace _ hhead)⟩
      · rw [if_neg hok]
        exact ⟨rfl, objBase⟩

/-- Every exit path of the root `extractJSON` returns a nil error and
a valid JSON object text. -/
theorem extractJSONMain_ok (s : List Char) :
    (extractJSONMain s).2 = none ∧ isJsonObjText (extractJSONMain s).1 = true := by
  unfold extractJSONMain
  rcases hdb : dropToBrace (trimSpace (fixGitArgs s)) with _ | s2
  · exact ⟨rfl, objBase⟩
  · obtain ⟨r, rfl⟩ := dropToBrace_head _ _ hdb
    dsimp only
    rw [exLoopR_first]
    split
    · rename_i rr hex
      obtain ⟨hok, hhead⟩ :=
        exLoopR_inl r ⟨['{'], false, false⟩ ['{'] rr (by decide) hex
      exact ⟨rfl, goUnmarshal_head_obj rr hok hhead⟩
    · rename_i st acc hex
      have hlast : acc.getLast? = some '{' :=
        exLoopR_inr_last r ⟨['{'], false, false⟩ ['{'] st acc (by decide) hex
      have haccne : acc.reverse ≠ [] := by
        intro hn
        rw [List.reverse_eq_nil_iff] at hn
        rw [hn] at hlast; simp at hlast
      have hhead : (acc.reverse ++ closersOf st.stack ++
          (if st.inString then ['"'] else [])).head? = some '{' := by
        rw [List.append_assoc, List.head?_append_of_ne_nil _ haccne, headRev]
        exact hlast
      by_cases hok : goUnmarshalMapOk (acc.reverse ++ closersOf st.stack ++
          (if st.inString then ['"'] else [])) = true
      · rw [if_pos hok]
        exact ⟨rfl, goUnmarshal_head_obj _ hok hhead⟩
      · rw [if_neg hok]
        exact ⟨rfl, objBase⟩

/-- Claim C3: for every input string, both copies of the
structured-response parser (`ExtractJSON` in `internal/types` and
`extractJSON` in the root package) return text that parses as a
syntactically valid JSON object together with a nil error; a parse
error is never returned to the caller. -/
theorem extractJSON_total_valid_object (s : List Char) :
    (ExtractJSON s).2 = none ∧ isJsonObjText (ExtractJSON s).1 = true ∧
    (extractJSONMain s).2 = none ∧ isJsonObjText (extractJSONMain s).1 = true :=
  ⟨(ExtractJSON_ok s).1, (ExtractJSON_ok s).2,
   (extractJSONMain_ok s).1, (extractJSONMain_ok s).2⟩

/-! ## Claim C7: repair of truncated output -/

/-- Fold of the `ExtractJSON` scanner state over a character list. -/
def scanRunT (st : ScanSt) (l : List Char) : ScanSt :=
  l.foldl (fun s c => (scanStepT s c).st) st

/-- The quote toggle never touches the bracket stack. -/
theorem qtoggle_stack (st : ScanSt) (c : Char) :
    (qtoggle st c).stack = st.stack := by
  unfold qtoggle; split <;> rfl

/-- A dropped rune comes from the mismatched-closer branches, where
the state (here: after an identity quote toggle) is unchanged. -/
theorem qtoggle_eq_of_ne (st : ScanSt) (c : Char) (h : ¬c = '"') :
    qtoggle st c = st := by
  unfold qtoggle; rw [if_neg h]

/-- Elementary facts about one scanner step: the written runes are
`[]` or `[c]`, a dropped rune leaves the state unchanged, and the
stack only ever gains open brackets. -/
theorem scanStepT_props (st : ScanSt) (c : Char) :
    ((scanStepT st c).out = [] ∨ (scanStepT st c).out = [c]) ∧
    ((scanStepT st c).out = [] → (scanStepT st c).st = st) ∧
    (∀ x ∈ (scanStepT st c).st.stack, x ∈ st.stack ∨ x = '{' ∨ x = '[') := by
  unfold scanStepT
  split_ifs <;> refine ⟨by simp, ?_, ?_⟩
  · intro h; simp at h
  · intro x hx; exact Or.inl hx
  · intro h; simp at h
  · intro x hx; exact Or.inl hx
  · intro h; simp at h
  · intro x hx; rw [qtoggle_stack] at hx; exact Or.inl hx
  · intro h; simp at h
  · intro x hx
    rw [qtoggle_stack] at hx
    rw [List.mem_cons] at hx
    rcases hx with rfl | hx
    · simp
    · exact Or.inl hx
  · intro h; simp at h
  · intro x hx
    rw [qtoggle_stack] at hx
    rw [List.mem_cons] at hx
    rcases hx with rfl | hx
    · simp
    · exact Or.inl hx
  · intro h; simp at h
  · intro x hx
    have hm := List.mem_of_mem_tail hx
    rw [qtoggle_stack] at hm
    exact Or.inl hm
  · intro _
    show qtoggle st c = st
    simp_all [qtoggle]
  · intro x hx; rw [qtoggle_stack] at hx; exact Or.inl hx
  · intro h; simp at h
  · intro x hx
    have hm := List.mem_of_mem_tail hx
    rw [qtoggle_stack] at hm
    exact Or.inl hm
  · intro _
    show qtoggle st c = st
    simp_all [qtoggle]
  · intro x hx; rw [qtoggle_stack] at hx; exact Or.inl hx
  · intro h; simp at h
  · intro x hx; rw [qtoggle_stack] at hx; exact Or.inl hx

/-- Scanning the synthesised closing brackets from a bracket-only
stack (outside a string) empties the stack. -/
theorem scanRunT_closers : ∀ stk : List Char, (∀ x ∈ stk, x = '{' ∨ x = '[') →
    scanRunT ⟨stk, false, false⟩ (closersOf stk) = ⟨[], false, false⟩ := by
  intro stk
  induction stk with
  | nil => intro; rfl
  | cons a tl ih =>
    intro hwf
    have htl : ∀ x ∈ tl, x = '{' ∨ x = '[' := fun x hx => hwf x (by simp [hx])
    rcases hwf a (by simp) with rfl | rfl
    · show scanRunT ⟨'{' :: tl, false, false⟩ ('}' :: closersOf tl) = _
      have h1 : scanStepT ⟨'{' :: tl, false, false⟩ '}' =
          ⟨['}'], true, ⟨tl, false, false⟩⟩ := rfl
      rw [scanRunT, List.foldl_cons, h1]
      exact ih htl
    · show scanRunT ⟨'[' :: tl, false, false⟩ (']' :: closersOf tl) = _
      have h1 : scanStepT ⟨'[' :: tl, false, false⟩ ']' =
          ⟨[']'], true, ⟨tl, false, false⟩⟩ := rfl
      rw [scanRunT, List.foldl_cons, h1]
      exact ih htl

/-- Invariant of the `ExtractJSON` scan loop: the final scanner state
is the fold of the scanner step over the kept runes, and the stack
holds only open brackets. -/
theorem exLoopT_inr_state (l : List Char) :
    ∀ st acc st' acc',
      exLoopT l st acc = Sum.inr (st', acc') →
      scanRunT ⟨[], false, false⟩ acc.reverse = st →
      (∀ x ∈ st.stack, x = '{' ∨ x = '[') →
      scanRunT ⟨[], false, false⟩ acc'.reverse = st' ∧
        (∀ x ∈ st'.stack, x = '{' ∨ x = '[') := by
  induction l with
  | nil =>
    intro st acc st' acc' h h1 h2
    rw [exLoopT] at h
    rw [Sum.inr.injEq, Prod.mk.injEq] at h
    rw [← h.1, ← h.2]
    exact ⟨h1, h2⟩
  | cons c rest ih =>
    intro st acc st' acc' h h1 h2
    rw [exLoopT] at h
    have hst : scanRunT ⟨[], false, false⟩ ((scanStepT st c).out ++ acc).reverse =
        (scanStepT st c).st := by
      rcases (scanStepT_props st c).1 with hout | hout
      · rw [hout, List.nil_append, h1]
        exact ((scanStepT_props st c).2.1 hout).symm
      · rw [hout, List.reverse_append]
        show scanRunT ⟨[], false, false⟩ (acc.reverse ++ [c]) = _
        rw [scanRunT, List.foldl_append]
        rw [scanRunT] at h1
        rw [h1]
        rfl
    have hwf : ∀ x ∈ (scanStepT st c).st.stack, x = '{' ∨ x = '[' := by
      intro x hx
      rcases (scanStepT_props st c).2.2 x hx with hmem | h' | h'
      · exact h2 x hmem
      · exact Or.inl h'
      · exact Or.inr h'
    split at h
    · split at h
      · simp at h
      · exact ih _ _ _ _ h hst hwf
    · exact ih _ _ _ _ h hst hwf

/-- Claim C7 (amended): when the `ExtractJSON` scan reaches
end-of-input with work left on the stack, the synthesised closing
brackets (appended innermost-first, before any closing quote) exactly
balance the scanner's bracket stack, provided the scan ended outside a
string and not in the middle of an escape.  (Truncation inside a
quoted string instead places the synthesised quote after the brackets,
so the completion generally fails to decode; see the counterexample.) -/
theorem extractJSON_close_balances (l : List Char) (st : ScanSt) (acc : List Char)
    (h : exLoopT l ⟨[], false, false⟩ [] = Sum.inr (st, acc))
    (hstr : st.inString = false) (hesc : st.isEscaped = false) :
    scanRunT ⟨[], false, false⟩ (acc.reverse ++ closersOf st.stack) =
      ⟨[], false, false⟩ := by
  obtain ⟨hst, hwf⟩ := exLoopT_inr_state l _ _ _ _ h rfl (by simp)
  rw [scanRunT, List.foldl_append]
  rw [scanRunT] at hst
  rw [hst]
  rcases st with ⟨stk, instr, esc⟩
  simp only at hstr hesc
  subst hstr hesc
  exact scanRunT_closers stk hwf

/-- Witness for the amended C7 theorem: the truncated object
`{"a": [1` is closed by `]` then `}`, balancing the stack. -/
theorem extractJSON_close_balances_witness :
    scanRunT ⟨[], false, false⟩
      (((cs "\x7b\"a\": [1").reverse).reverse ++ closersOf ['[', '{']) =
      ⟨[], false, false⟩ :=
  extractJSON_close_balances (cs "\x7b\"a\": [1") ⟨['[', '{'], false, false⟩
    ((cs "\x7b\"a\": [1").reverse) (by decide) rfl rfl

/-- Counterexample for claim C7 as stated: an object truncated inside
a quoted string is not completed into decodable JSON — the quote is
synthesised after the closing bracket, the completion `{"a": "b}"`
fails to decode, and the parser falls back to `{}`. -/
theorem extractJSON_truncated_string_cex :
    ExtractJSON (cs "\x7b\"a\": \"b") = (cs "\x7b\x7d", none) ∧
    (cs "\x7b\"a\": \"b") ++ closersOf ['{'] ++ ['"'] = cs "\x7b\"a\": \"b\x7d\"" ∧
    goUnmarshalMapOk (cs "\x7b\"a\": \"b\x7d\"") = false := by
  refine ⟨by decide, by decide, by decide⟩

/-! ## Claim C8: clean tool-call JSON round-trips

The claim quantifies over well-formed tool-call JSON strings.  These
are expressed with an abstract syntax of JSON texts and a canonical
renderer; the round-trip theorem shows the scan loop of `extractJSON`
consumes a rendered object unchanged and returns it at its closing
brace. -/

/-- Kinds of the JSON abstract syntax: a value, a non-empty list of
array elements, a non-empty list of object members. -/
inductive JKind where
  | kval : JKind
  | kelems : JKind
  | kmems : JKind

/-- Abstract syntax of JSON texts. -/
inductive JS : JKind → Type where
  | jstr (s : List Char) : JS .kval
  | jnum (lit : List Char) : JS .kval
  | jtrue : JS .kval
  | jfalse : JS .kval
  | jnull : JS .kval
  | jarr (xs : JS .kelems) : JS .kval
  | jobj (ms : JS .kmems) : JS .kval
  | enil : JS .kelems
  | econs (hd : JS .kval) (tl : JS .kelems) : JS .kelems
  | mnil : JS .kmems
  | mcons (k : List Char) (v : JS .kval) (tl : JS .kmems) : JS .kmems

/-- JSON string escaping used by the canonical renderer: quote and
backslash are escaped, all other characters appear verbatim. -/
def escStr (s : List Char) : List Char :=
  (s.map (fun c =>
    if c = '"' then ['\\', '"'] else if c = '\\' then ['\\', '\\'] else [c])).flatten

/-- Canonical (whitespace-free) rendering of the JSON abstract
syntax. -/
def renderJS : {k : JKind} → JS k → List Char
  | _, .jstr s => '"' :: escStr s ++ ['"']
  | _, .jnum lit => lit
  | _, .jtrue => cs "true"
  | _, .jfalse => cs "false"
  | _, .jnull => cs "null"
  | _, .jarr .enil => cs "[]"
  | _, .jarr (.econs h tl) => '[' :: renderJS (JS.econs h tl) ++ [']']
  | _, .jobj .mnil => '{' :: ['}']
  | _, .jobj (.mcons k v tl) => '{' :: renderJS (JS.mcons k v tl) ++ ['}']
  | _, .enil => []
  | _, .econs h .enil => renderJS h
  | _, .econs h (.econs h2 tl) => renderJS h ++ ',' :: renderJS (JS.econs h2 tl)
  | _, .mnil => []
  | _, .mcons k v .mnil => '"' :: escStr k ++ '"' :: ':' :: renderJS v
  | _, .mcons k v (.mcons k2 v2 tl) =>
    '"' :: escStr k ++ '"' :: ':' :: renderJS v ++ ',' :: renderJS (JS.mcons k2 v2 tl)

/-- Well-formedness of the abstract syntax: no raw control characters
in strings or keys, and number literals satisfying the JSON number
grammar. -/
def wfJS : {k : JKind} → JS k → Bool
  | _, .jstr s => s.all (fun c => 0x20 ≤ c.toNat)
  | _, .jnum lit => validNum lit
  | _, .jtrue => true
  | _, .jfalse => true
  | _, .jnull => true
  | _, .jarr xs => wfJS xs
  | _, .jobj ms => wfJS ms
  | _, .enil => true
  | _, .econs h tl => wfJS h && wfJS tl
  | _, .mnil => true
  | _, .mcons k v tl => k.all (fun c => 0x20 ≤ c.toNat) && wfJS v && wfJS tl

/-- Fuel needed by `parseRec` on a rendered value. -/
def jsize : {k : JKind} → JS k → Nat
  | _, .jstr _ => 1
  | _, .jnum _ => 1
  | _, .jtrue => 1
  | _, .jfalse => 1
  | _, .jnull => 1
  | _, .jarr xs => 1 + jsize xs
  | _, .jobj ms => 1 + jsize ms
  | _, .enil => 0
  | _, .econs h tl => 1 + jsize h + jsize tl
  | _, .mnil => 0
  | _, .mcons _ v tl => 1 + jsize v + jsize tl

/-- The input following a rendered value must not be able to continue
a number literal. -/
def numBound : List Char → Prop
  | [] => True
  | c :: _ => numChar c = false

/-- A valid number literal is non-empty and starts with a minus sign
or a digit. -/
theorem validNum_head (lit : List Char) (h : validNum lit = true) :
    ∃ c t, lit = c :: t ∧ (c = '-' ∨ c.isDigit = true) := by
  rcases lit with _ | ⟨c, t⟩
  · simp [validNum] at h
  · refine ⟨c, t, rfl, ?_⟩
    by_cases hc : c = '-'
    · exact Or.inl hc
    · right
      unfold validNum at h
      rw [Bool.and_eq_true] at h
      replace h := h.2
      have hid : (match (c :: t : List Char) with
          | '-' :: r => r
          | r => r) = c :: t := by
        split
        · rename_i r heq
          rw [List.cons.injEq] at heq
          exact absurd heq.1 hc
        · rfl
      rw [hid] at h
      dsimp only at h
      split at h
      · rename_i r heq
        rw [List.cons.injEq] at heq
        rw [heq.1]
        decide
      · rename_i c' r heq
        rw [List.cons.injEq] at heq
        rw [Bool.and_eq_true] at h
        rw [heq.1]
        exact h.1
      · rename_i heq
        simp at heq

/-- `validNum` literals contain only number characters. -/
theorem validNum_all (lit : List Char) (h : validNum lit = true) :
    lit.all numChar = true := by
  unfold validNum at h
  rw [Bool.and_eq_true] at h
  exact h.1

/-- `skipWs` is the identity on input whose head is not JSON
whitespace. -/
theorem skipWs_id (c : Char) (r : List Char) (h : jsonWs c = false) :
    skipWs (c :: r) = c :: r := by
  simp [skipWs, List.dropWhile_cons, h]

/-- `takeWhile`/`dropWhile` split a literal followed by a boundary. -/
theorem span_split (p : Char → Bool) (lit rest : List Char)
    (hall : lit.all p = true)
    (hb : rest = [] ∨ ∃ c t, rest = c :: t ∧ p c = false) :
    (lit ++ rest).takeWhile p = lit ∧ (lit ++ rest).dropWhile p = rest := by
  induction lit with
  | nil =>
    simp only [List.nil_append]
    rcases hb with rfl | ⟨c, t, rfl, hc⟩
    · exact ⟨rfl, rfl⟩
    · simp [List.takeWhile_cons, List.dropWhile_cons, hc]
  | cons a as ih =>
    rw [List.all_cons, Bool.and_eq_true] at hall
    have := ih hall.2
    simp [List.takeWhile_cons, List.dropWhile_cons, hall.1, this.1, this.2]

/-- `parseNum` accepts a rendered valid literal and stops exactly at
the boundary. -/
theorem parseNum_render (lit rest : List Char) (h : validNum lit = true)
    (hb : numBound rest) :
    parseNum (lit ++ rest) = some (lit, rest) := by
  have hb' : rest = [] ∨ ∃ c t, rest = c :: t ∧ numChar c = false := by
    rcases rest with _ | ⟨c, t⟩
    · exact Or.inl rfl
    · exact Or.inr ⟨c, t, rfl, hb⟩
  obtain ⟨h1, h2⟩ := span_split numChar lit rest (validNum_all lit h) hb'
  unfold parseNum
  rw [h1, h2, if_pos h]

/-! Unfoldings of `parseRec` at each kind of leading character. -/

theorem parseRec_value_quote (n : Nat) (r : List Char) :
    parseRec (n + 1) (ParseTask.value ('"' :: r)) =
      (parseStrBody r).map (fun p => (GoJson.strv p.1, p.2)) := rfl

theorem parseRec_value_lbrack (n : Nat) (r : List Char) :
    parseRec (n + 1) (ParseTask.value ('[' :: r)) =
      (if (skipWs r).head? = some ']' then some (GoJson.arrv [], (skipWs r).tail)
       else parseRec n (ParseTask.elems [] (skipWs r))) := rfl

theorem parseRec_value_true (n : Nat) (r : List Char) :
    parseRec (n + 1) (ParseTask.value ('t' :: 'r' :: 'u' :: 'e' :: r)) =
      some (GoJson.boolv true, r) := rfl

theorem parseRec_value_false (n : Nat) (r : List Char) :
    parseRec (n + 1) (ParseTask.value ('f' :: 'a' :: 'l' :: 's' :: 'e' :: r)) =
      some (GoJson.boolv false, r) := rfl

theorem parseRec_value_null (n : Nat) (r : List Char) :
    parseRec (n + 1) (ParseTask.value ('n' :: 'u' :: 'l' :: 'l' :: r)) =
      some (GoJson.nullv, r) := rfl

theorem parseRec_elems_eq (n : Nat) (acc : List GoJson) (s : List Char) :
    parseRec (n + 1) (ParseTask.elems acc s) =
      (match parseRec n (ParseTask.value s) with
       | some (v, r) =>
         (if (skipWs r).head? = some ',' then
           parseRec n (ParseTask.elems (acc ++ [v]) (skipWs r).tail)
          else if (skipWs r).head? = some ']' then
           some (GoJson.arrv (acc ++ [v]), (skipWs r).tail)
          else none)
       | none => none) := rfl

theorem parseRec_mems_eq (n : Nat) (acc : List (List Char × GoJson)) (s : List Char) :
    parseRec (n + 1) (ParseTask.mems acc s) =
      (if (skipWs s).head? = some '"' then
        match parseStrBody (skipWs s).tail with
        | some (k, r2) =>
          (if (skipWs r2).head? = some ':' then
            match parseRec n (ParseTask.value (skipWs r2).tail) with
            | some (v, r4) =>
              (if (skipWs r4).head? = some ',' then
                parseRec n (ParseTask.mems (acc ++ [(k, v)]) (skipWs r4).tail)
               else if (skipWs r4).head? = some '}' then
                some (GoJson.objv (acc ++ [(k, v)]), (skipWs r4).tail)
               else none)
            | none => none
           else none)
        | none => none
       else none) := rfl

/-- A character that cannot equal any given character with a false
`isDigit` when it is itself a digit. -/
theorem digit_ne (c : Char) (hd : c.isDigit = true) (d : Char)
    (hnd : d.isDigit = false) : ¬c = d := by
  rintro rfl
  rw [hd] at hnd
  exact absurd hnd (by simp)

/-- Character-class facts for a digit. -/
theorem digit_facts (c : Char) (hd : c.isDigit = true) :
    jsonWs c = false ∧ ¬c = ']' ∧ ¬c = '}' ∧ ¬c = '{' ∧ ¬c = '[' ∧
      ¬c = '"' ∧ ¬c = 't' ∧ ¬c = 'f' ∧ ¬c = 'n' := by
  refine ⟨?_, digit_ne c hd ']' (by decide), digit_ne c hd '}' (by decide),
    digit_ne c hd '{' (by decide), digit_ne c hd '[' (by decide),
    digit_ne c hd '"' (by decide), digit_ne c hd 't' (by decide),
    digit_ne c hd 'f' (by decide), digit_ne c hd 'n' (by decide)⟩
  simp [jsonWs, digit_ne c hd ' ' (by decide), digit_ne c hd '\t' (by decide),
    digit_ne c hd '\n' (by decide), digit_ne c hd '\r' (by decide)]

/-- `litAt` fails when the heads differ. -/
theorem litAt_head_false (p : Char) (ps : List Char) (c : Char) (r : List Char)
    (h : ¬p = c) : litAt (p :: ps) (c :: r) = false := by
  simp [litAt, h]

/-- Unfolding of `parseRec` on a number start. -/
theorem parseRec_value_num (n : Nat) (c : Char) (r : List Char)
    (h1 : ¬c = '{') (h2 : ¬c = '[') (h3 : ¬c = '"')
    (h4 : litAt (cs "true") (c :: r) = false)
    (h5 : litAt (cs "false") (c :: r) = false)
    (h6 : litAt (cs "null") (c :: r) = false)
    (h7 : (c = '-' || c.isDigit) = true)
    (h8 : jsonWs c = false) :
    parseRec (n + 1) (ParseTask.value (c :: r)) =
      (parseNum (c :: r)).map (fun p => (GoJson.numv p.1, p.2)) := by
  rw [parseRec, skipWs_id c r h8]
  dsimp only
  rw [if_neg h1, if_neg h2, if_neg h3, if_neg (by simp [h4]),
    if_neg (by simp [h5]), if_neg (by simp [h6]), if_pos h7]

/-- Every rendered well-formed value starts with a character that is
not whitespace and not a closer. -/
theorem renderVal_head (v : JS .kval) (hwf : wfJS v = true) :
    ∃ c t, renderJS v = c :: t ∧ jsonWs c = false ∧ ¬c = ']' ∧ ¬c = '}' := by
  cases v with
  | jstr s => exact ⟨'"', _, rfl, by decide, by decide, by decide⟩
  | jnum lit =>
    obtain ⟨c, t, heq, hc⟩ := validNum_head lit (by simpa [wfJS] using hwf)
    refine ⟨c, t, heq, ?_, ?_, ?_⟩ <;>
      rcases hc with rfl | hd
    · decide
    · exact (digit_facts c hd).1
    · decide
    · exact (digit_facts c hd).2.1
    · decide
    · exact (digit_facts c hd).2.2.1
  | jtrue => exact ⟨'t', _, rfl, by decide, by decide, by decide⟩
  | jfalse => exact ⟨'f', _, rfl, by decide, by decide, by decide⟩
  | jnull => exact ⟨'n', _, rfl, by decide, by decide, by decide⟩
  | jarr xs =>
    cases xs with
    | enil => exact ⟨'[', _, rfl, by decide, by decide, by decide⟩
    | econs h tl => exact ⟨'[', _, rfl, by decide, by decide, by decide⟩
  | jobj ms =>
    cases ms with
    | mnil => exact ⟨'{', _, rfl, by decide, by decide, by decide⟩
    | mcons k v tl => exact ⟨'{', _, rfl, by decide, by decide, by decide⟩

/-- A rendered element list starts like its first value. -/
theorem renderElems_head (h : JS .kval) (tl : JS .kelems) (hwf : wfJS h = true) :
    ∃ c t, renderJS (JS.econs h tl) = c :: t ∧ jsonWs c = false ∧ ¬c = ']' := by
  obtain ⟨c, t, heq, hws, hnr, _⟩ := renderVal_head h hwf
  cases tl with
  | enil => exact ⟨c, t, heq, hws, hnr⟩
  | econs h2 tl2 =>
    refine ⟨c, t ++ ',' :: renderJS (JS.econs h2 tl2), ?_, hws, hnr⟩
    show renderJS h ++ ',' :: renderJS (JS.econs h2 tl2) = _
    rw [heq, List.cons_append]

/-- Plain-character step of the string-body parser. -/
theorem psb_plain (c : Char) (r : List Char) (h1 : ¬c = '"') (h2 : ¬c = '\\')
    (h3 : ¬c.toNat < 0x20) :
    parseStrBody (c :: r) = (parseStrBody r).map (fun p => (c :: p.1, p.2)) := by
  rw [parseStrBody.eq_def]
  split <;> simp_all

/-- The string-body parser accepts an escaped rendering followed by
the closing quote and returns the original content. -/
theorem parseStrBody_render : ∀ s : List Char,
    s.all (fun c => 0x20 ≤ c.toNat) = true →
    ∀ rest, parseStrBody (escStr s ++ '"' :: rest) = some (s, rest) := by
  intro s
  induction s with
  | nil => intro _ rest; rfl
  | cons c cs' ih =>
    intro hs rest
    rw [List.all_cons, Bool.and_eq_true] at hs
    have hrec := ih hs.2 rest
    by_cases h1 : c = '"'
    · subst h1
      show parseStrBody ('\\' :: '"' :: (escStr cs' ++ '"' :: rest)) = _
      rw [show parseStrBody ('\\' :: '"' :: (escStr cs' ++ '"' :: rest)) =
          (parseStrBody (escStr cs' ++ '"' :: rest)).map
            (fun p => ('"' :: p.1, p.2)) from rfl, hrec]
      rfl
    · by_cases h2 : c = '\\'
      · subst h2
        show parseStrBody ('\\' :: '\\' :: (escStr cs' ++ '"' :: rest)) = _
        rw [show parseStrBody ('\\' :: '\\' :: (escStr cs' ++ '"' :: rest)) =
            (parseStrBody (escStr cs' ++ '"' :: rest)).map
              (fun p => ('\\' :: p.1, p.2)) from rfl, hrec]
        rfl
      · have hesc : escStr (c :: cs') = c :: escStr cs' := by
          simp [escStr, h1, h2]
        rw [hesc, List.cons_append,
          psb_plain c _ h1 h2 (by have := hs.1; simp at this; omega), hrec]
        rfl

/-- A rendered member list starts with the quote of its first key. -/
theorem renderMems_head (k : List Char) (v : JS .kval) (tl : JS .kmems) :
    ∃ t, renderJS (JS.mcons k v tl) = '"' :: t := by
  cases tl with
  | mnil => exact ⟨_, rfl⟩
  | mcons k2 v2 tl2 => exact ⟨_, rfl⟩

/-- Statement of the round-trip acceptance, by syntactic kind. -/
def accStmt : (k : JKind) → JS k → Prop
  | .kval, v => ∀ fuel rest, wfJS v = true → jsize v ≤ fuel → numBound rest →
      ∃ g, parseRec fuel (ParseTask.value (renderJS v ++ rest)) = some (g, rest)
  | .kelems, .enil => True
  | .kelems, .econs h tl => ∀ fuel rest acc, wfJS (JS.econs h tl) = true →
      jsize (JS.econs h tl) ≤ fuel →
      ∃ ys, parseRec fuel
          (ParseTask.elems acc (renderJS (JS.econs h tl) ++ ']' :: rest)) =
        some (GoJson.arrv (acc ++ ys), rest)
  | .kmems, .mnil => True
  | .kmems, .mcons k v tl => ∀ fuel rest acc, wfJS (JS.mcons k v tl) = true →
      jsize (JS.mcons k v tl) ≤ fuel →
      ∃ ys, parseRec fuel
          (ParseTask.mems acc (renderJS (JS.mcons k v tl) ++ '}' :: rest)) =
        some (GoJson.objv (acc ++ ys), rest)

/-- The Go JSON decoder accepts every canonically rendered well-formed
value, consuming exactly the rendering. -/
theorem accJS : ∀ {k : JKind} (v : JS k), accStmt k v := by
  intro k v
  induction v with
  | jstr s =>
    intro fuel rest hwf hsz hnb
    simp only [jsize] at hsz
    rcases fuel with _ | f
    · omega
    · rw [show renderJS (JS.jstr s) ++ rest = '"' :: (escStr s ++ '"' :: rest) from by
        show ('"' :: escStr s ++ ['"']) ++ rest = _
        simp]
      rw [parseRec_value_quote, parseStrBody_render s (by simpa [wfJS] using hwf) rest]
      exact ⟨GoJson.strv s, rfl⟩
  | jnum lit =>
    intro fuel rest hwf hsz hnb
    simp only [jsize] at hsz
    rcases fuel with _ | f
    · omega
    · have hv : validNum lit = true := by simpa [wfJS] using hwf
      obtain ⟨c, t, rfl, hc⟩ := validNum_head lit hv
      have hfacts : ¬c = '{' ∧ ¬c = '[' ∧ ¬c = '"' ∧ jsonWs c = false ∧
          litAt (cs "true") (c :: (t ++ rest)) = false ∧
          litAt (cs "false") (c :: (t ++ rest)) = false ∧
          litAt (cs "null") (c :: (t ++ rest)) = false := by
        rcases hc with rfl | hd
        · exact ⟨by decide, by decide, by decide, by decide, rfl, rfl, rfl⟩
        · obtain ⟨hws, _, _, hbr, hbk, hq, ht', hf', hn'⟩ := digit_facts c hd
          exact ⟨hbr, hbk, hq, hws,
            litAt_head_false 't' (cs "rue") c (t ++ rest) (fun he => ht' he.symm),
            litAt_head_false 'f' (cs "alse") c (t ++ rest) (fun he => hf' he.symm),
            litAt_head_false 'n' (cs "ull") c (t ++ rest) (fun he => hn' he.symm)⟩
      obtain ⟨hb1, hb2, hb3, hb4, hb5, hb6, hb7⟩ := hfacts
      have hstart : (c = '-' || c.isDigit) = true := by
        rcases hc with rfl | hd
        · decide
        · simp [hd]
      rw [show renderJS (JS.jnum (c :: t)) ++ rest = c :: (t ++ rest) from by
        show (c :: t) ++ rest = _
        simp]
      rw [parseRec_value_num f c (t ++ rest) hb1 hb2 hb3 hb5 hb6 hb7 hstart hb4]
      rw [show parseNum (c :: (t ++ rest)) = some (c :: t, rest) from
        parseNum_render (c :: t) rest hv hnb]
      exact ⟨GoJson.numv (c :: t), rfl⟩
  | jtrue =>
    intro fuel rest hwf hsz hnb
    simp only [jsize] at hsz
    rcases fuel with _ | f
    · omega
    · rw [show renderJS JS.jtrue ++ rest = 't' :: 'r' :: 'u' :: 'e' :: rest from rfl,
        parseRec_value_true]
      exact ⟨GoJson.boolv true, rfl⟩
  | jfalse =>
    intro fuel rest hwf hsz hnb
    simp only [jsize] at hsz
    rcases fuel with _ | f
    · omega
    · rw [show renderJS JS.jfalse ++ rest = 'f' :: 'a' :: 'l' :: 's' :: 'e' :: rest from rfl,
        parseRec_value_false]
      exact ⟨GoJson.boolv false, rfl⟩
  | jnull =>
    intro fuel rest hwf hsz hnb
    simp only [jsize] at hsz
    rcases fuel with _ | f
    · omega
    · rw [show renderJS JS.jnull ++ rest = 'n' :: 'u' :: 'l' :: 'l' :: rest from rfl,
        parseRec_value_null]
      exact ⟨GoJson.nullv, rfl⟩
  | jarr xs ih =>
    intro fuel rest hwf hsz hnb
    cases xs with
    | enil =>
      simp only [jsize] at hsz
      rcases fuel with _ | f
      · omega
      · rw [show renderJS (JS.jarr JS.enil) ++ rest = '[' :: ']' :: rest from rfl,
          parseRec_value_lbrack, skipWs_id ']' rest (by decide), if_pos (by simp)]
        exact ⟨GoJson.arrv [], rfl⟩
    | econs h tl =>
      simp only [jsize] at hsz
      rcases fuel with _ | f
      · omega
      · have hwh : wfJS h = true := by
          have : (wfJS h && wfJS tl) = true := hwf
          rw [Bool.and_eq_true] at this
          exact this.1
        obtain ⟨c0, t0, hr, hws0, hnr0⟩ := renderElems_head h tl hwh
        rw [show renderJS (JS.jarr (JS.econs h tl)) ++ rest =
            '[' :: (renderJS (JS.econs h tl) ++ ']' :: rest) from by
          show ('[' :: renderJS (JS.econs h tl) ++ [']']) ++ rest = _
          simp]
        rw [parseRec_value_lbrack]
        rw [show skipWs (renderJS (JS.econs h tl) ++ ']' :: rest) =
            renderJS (JS.econs h tl) ++ ']' :: rest from by
          rw [hr, List.cons_append]
          exact skipWs_id c0 _ hws0]
        rw [if_neg (by rw [hr, List.cons_append]; simp [hnr0])]
        obtain ⟨ys, hys⟩ := ih f rest [] hwf (by simp only [jsize]; omega)
        rw [hys]
        exact ⟨GoJson.arrv ([] ++ ys), rfl⟩
  | jobj ms ih =>
    intro fuel rest hwf hsz hnb
    cases ms with
    | mnil =>
      simp only [jsize] at hsz
      rcases fuel with _ | f
      · omega
      · rw [show renderJS (JS.jobj JS.mnil) ++ rest = '{' :: '}' :: rest from rfl,
          parseRec_value_brace, skipWs_id '}' rest (by decide), if_pos (by simp)]
        exact ⟨GoJson.objv [], rfl⟩
    | mcons k v tl =>
      simp only [jsize] at hsz
      rcases fuel with _ | f
      · omega
      · rw [show renderJS (JS.jobj (JS.mcons k v tl)) ++ rest =
            '{' :: (renderJS (JS.mcons k v tl) ++ '}' :: rest) from by
          show ('{' :: renderJS (JS.mcons k v tl) ++ ['}']) ++ rest = _
          simp]
        rw [parseRec_value_brace]
        obtain ⟨t0, hm⟩ := renderMems_head k v tl
        rw [show skipWs (renderJS (JS.mcons k v tl) ++ '}' :: rest) =
            renderJS (JS.mcons k v tl) ++ '}' :: rest from by
          rw [hm, List.cons_append]
          exact skipWs_id '"' _ (by decide)]
        rw [if_neg (by rw [hm, List.cons_append]; simp)]
        obtain ⟨ys, hys⟩ := ih f rest [] hwf (by simp only [jsize]; omega)
        rw [hys]
        exact ⟨GoJson.objv ([] ++ ys), rfl⟩
  | enil => exact trivial
  | econs h tl ih1 ih2 =>
    intro fuel rest acc hwf hsz
    have hw : wfJS h = true ∧ wfJS tl = true := by
      have : (wfJS h && wfJS tl) = true := hwf
      rwa [Bool.and_eq_true] at this
    simp only [jsize] at hsz
    rcases fuel with _ | f
    · omega
    · rw [parseRec_elems_eq]
      cases tl with
      | enil =>
        obtain ⟨g, hg⟩ := ih1 f (']' :: rest) hw.1 (by omega)
          (by show numChar ']' = false; decide)
        rw [show renderJS (JS.econs h JS.enil) ++ ']' :: rest =
            renderJS h ++ ']' :: rest from rfl]
        rw [hg]
        dsimp only
        rw [skipWs_id ']' rest (by decide), if_neg (by simp), if_pos (by simp)]
        exact ⟨[g], rfl⟩
      | econs h2 tl2 =>
        obtain ⟨g, hg⟩ := ih1 f (',' :: (renderJS (JS.econs h2 tl2) ++ ']' :: rest))
          hw.1 (by omega) (by show numChar ',' = false; decide)
        rw [show renderJS (JS.econs h (JS.econs h2 tl2)) ++ ']' :: rest =
            renderJS h ++ (',' :: (renderJS (JS.econs h2 tl2) ++ ']' :: rest)) from by
          show (renderJS h ++ ',' :: renderJS (JS.econs h2 tl2)) ++ ']' :: rest = _
          simp]
        rw [hg]
        dsimp only
        rw [skipWs_id ',' _ (by decide), if_pos (by simp)]
        obtain ⟨ys, hys⟩ := ih2 f rest (acc ++ [g]) hw.2
          (by simp only [jsize] at hsz ⊢; omega)
        rw [show ((',' :: (renderJS (JS.econs h2 tl2) ++ ']' :: rest)) : List Char).tail =
            renderJS (JS.econs h2 tl2) ++ ']' :: rest from rfl]
        rw [hys]
        exact ⟨[g] ++ ys, by rw [List.append_assoc]⟩
  | mnil => exact trivial
  | mcons k v tl ih1 ih2 =>
    intro fuel rest acc hwf hsz
    have hw : (k.all (fun c => 0x20 ≤ c.toNat) = true ∧ wfJS v = true) ∧
        wfJS tl = true := by
      have : ((k.all (fun c => 0x20 ≤ c.toNat) && wfJS v) && wfJS tl) = true := hwf
      rw [Bool.and_eq_true, Bool.and_eq_true] at this
      exact this
    simp only [jsize] at hsz
    rcases fuel with _ | f
    · omega
    · rw [parseRec_mems_eq]
      cases tl with
      | mnil =>
        rw [show renderJS (JS.mcons k v JS.mnil) ++ '}' :: rest =
            '"' :: (escStr k ++ '"' :: (':' :: (renderJS v ++ '}' :: rest))) from by
          show ('"' :: escStr k ++ '"' :: ':' :: renderJS v) ++ '}' :: rest = _
          simp]
        rw [skipWs_id '"' _ (by decide), if_pos (by simp)]
        rw [show (('"' :: (escStr k ++ '"' :: (':' :: (renderJS v ++ '}' :: rest)))) :
            List Char).tail = escStr k ++ '"' :: (':' :: (renderJS v ++ '}' :: rest))
          from rfl]
        rw [parseStrBody_render k hw.1.1]
        dsimp only
        rw [skipWs_id ':' _ (by decide), if_pos (by simp)]
        obtain ⟨g, hg⟩ := ih1 f ('}' :: rest) hw.1.2 (by omega)
          (by show numChar '}' = false; decide)
        rw [show ((':' :: (renderJS v ++ '}' :: rest)) : List Char).tail =
            renderJS v ++ '}' :: rest from rfl]
        rw [hg]
        dsimp only
        rw [skipWs_id '}' rest (by decide), if_neg (by simp), if_pos (by simp)]
        exact ⟨[(k, g)], rfl⟩
      | mcons k2 v2 tl2 =>
        rw [show renderJS (JS.mcons k v (JS.mcons k2 v2 tl2)) ++ '}' :: rest =
            '"' :: (escStr k ++ '"' :: (':' :: (renderJS v ++
              (',' :: (renderJS (JS.mcons k2 v2 tl2) ++ '}' :: rest))))) from by
          show ('"' :: escStr k ++ '"' :: ':' :: renderJS v ++
            ',' :: renderJS (JS.mcons k2 v2 tl2)) ++ '}' :: rest = _
          simp]
        rw [skipWs_id '"' _ (by decide), if_pos (by simp)]
        rw [show (('"' :: (escStr k ++ '"' :: (':' :: (renderJS v ++
            (',' :: (renderJS (JS.mcons k2 v2 tl2) ++ '}' :: rest)))))) :
            List Char).tail = escStr k ++ '"' :: (':' :: (renderJS v ++
            (',' :: (renderJS (JS.mcons k2 v2 tl2) ++ '}' :: rest)))) from rfl]
        rw [parseStrBody_render k hw.1.1]
        dsimp only
        rw [skipWs_id ':' _ (by decide), if_pos (by simp)]
        obtain ⟨g, hg⟩ := ih1 f (',' :: (renderJS (JS.mcons k2 v2 tl2) ++ '}' :: rest))
          hw.1.2 (by omega) (by show numChar ',' = false; decide)
        rw [show ((':' :: (renderJS v ++ (',' :: (renderJS (JS.mcons k2 v2 tl2) ++
            '}' :: rest)))) : List Char).tail =
            renderJS v ++ (',' :: (renderJS (JS.mcons k2 v2 tl2) ++ '}' :: rest))
          from rfl]
        rw [hg]
        dsimp only
        rw [skipWs_id ',' _ (by decide), if_pos (by simp)]
        obtain ⟨ys, hys⟩ := ih2 f rest (acc ++ [(k, g)]) hw.2
          (by simp only [jsize] at hsz ⊢; omega)
        rw [show ((',' :: (renderJS (JS.mcons k2 v2 tl2) ++ '}' :: rest)) :
            List Char).tail = renderJS (JS.mcons k2 v2 tl2) ++ '}' :: rest from rfl]
        rw [hys]
        exact ⟨[(k, g)] ++ ys, by rw [List.append_assoc]⟩

/-! ## Size bound: the rendered text is long enough to fuel the parser -/

/-- Statement of the size bound, by syntactic kind. -/
def sizeStmt : (k : JKind) → JS k → Prop
  | .kval, v => wfJS v = true → jsize v ≤ (renderJS v).length
  | .kelems, v => wfJS v = true → jsize v ≤ (renderJS v).length + 1
  | .kmems, v => wfJS v = true → jsize v ≤ (renderJS v).length + 1

/-- The parser fuel needed for a rendered value is bounded by the
length of the rendering. -/
theorem jsize_le : ∀ {k : JKind} (v : JS k), sizeStmt k v := by
  intro k v
  induction v with
  | jstr s =>
    intro _
    simp only [renderJS, jsize, List.length_cons, List.length_append]
    omega
  | jnum lit =>
    intro hwf
    obtain ⟨c, t, rfl, -⟩ := validNum_head lit hwf
    simp only [renderJS, jsize, List.length_cons]
    omega
  | jtrue => intro _; decide
  | jfalse => intro _; decide
  | jnull => intro _; decide
  | jarr xs ih =>
    intro hwf
    cases xs with
    | enil => decide
    | econs h tl =>
      have hle := ih hwf
      simp only [jsize, renderJS, List.length_cons, List.length_append,
        List.length_singleton] at hle ⊢
      omega
  | jobj ms ih =>
    intro hwf
    cases ms with
    | mnil => decide
    | mcons k2 v2 tl2 =>
      have hle := ih hwf
      simp only [jsize, renderJS, List.length_cons, List.length_append,
        List.length_singleton] at hle ⊢
      omega
  | enil => intro _; decide
  | econs h tl ih1 ih2 =>
    intro hwf
    have hw : wfJS h = true ∧ wfJS tl = true := by
      have : (wfJS h && wfJS tl) = true := hwf
      rwa [Bool.and_eq_true] at this
    have hle1 := ih1 hw.1
    have hle2 := ih2 hw.2
    cases tl with
    | enil =>
      simp only [jsize, renderJS] at hle1 ⊢
      omega
    | econs h2 tl2 =>
      simp only [jsize, renderJS, List.length_cons, List.length_append] at hle1 hle2 ⊢
      omega
  | mnil => intro _; decide
  | mcons k v tl ih1 ih2 =>
    intro hwf
    have hw : (k.all (fun c => 0x20 ≤ c.toNat) = true ∧ wfJS v = true) ∧
        wfJS tl = true := by
      have : ((k.all (fun c => 0x20 ≤ c.toNat) && wfJS v) && wfJS tl) = true := hwf
      rw [Bool.and_eq_true, Bool.and_eq_true] at this
      exact this
    have hle1 := ih1 hw.1.2
    have hle2 := ih2 hw.2
    cases tl with
    | mnil =>
      simp only [jsize, renderJS, List.length_cons, List.length_append] at hle1 ⊢
      omega
    | mcons k2 v2 tl2 =>
      simp only [jsize, renderJS, List.length_cons, List.length_append] at hle1 hle2 ⊢
      omega

/-- The rendering of a well-formed object parses to an object value
consuming the whole input. -/
theorem parseRender_obj (ms : JS .kmems) (hwf : wfJS ms = true)
    (fuel : Nat) (hsz : jsize (JS.jobj ms) ≤ fuel) :
    ∃ g, parseRec fuel (ParseTask.value (renderJS (JS.jobj ms))) =
      some (GoJson.objv g, []) := by
  rcases fuel with _ | f
  · simp only [jsize] at hsz
    omega
  · cases ms with
    | mnil =>
      refine ⟨[], ?_⟩
      rw [show renderJS (JS.jobj JS.mnil) = '{' :: ('}' :: []) from rfl,
        parseRec_value_brace, skipWs_id '}' [] (by decide), if_pos (by decide)]
      rfl
    | mcons k v tl =>
      rw [show renderJS (JS.jobj (JS.mcons k v tl)) =
          '{' :: (renderJS (JS.mcons k v tl) ++ '}' :: []) from by
        show '{' :: renderJS (JS.mcons k v tl) ++ ['}'] = _
        simp]
      rw [parseRec_value_brace]
      obtain ⟨t0, hm⟩ := renderMems_head k v tl
      rw [show skipWs (renderJS (JS.mcons k v tl) ++ '}' :: []) =
          renderJS (JS.mcons k v tl) ++ '}' :: [] from by
        rw [hm, List.cons_append]
        exact skipWs_id '"' _ (by decide)]
      rw [if_neg (by rw [hm, List.cons_append]; simp)]
      obtain ⟨ys, hys⟩ := accJS (JS.mcons k v tl) f [] [] hwf
        (by simp only [jsize] at hsz ⊢; omega)
      rw [hys]
      exact ⟨[] ++ ys, rfl⟩

/-- Go `json.Unmarshal` into `map[string]interface{}` accepts the
rendering of every well-formed object. -/
theorem goUnmarshal_render (ms : JS .kmems) (hwf : wfJS ms = true) :
    goUnmarshalMapOk (renderJS (JS.jobj ms)) = true := by
  have hle := jsize_le (JS.jobj ms) (show wfJS (JS.jobj ms) = true from hwf)
  obtain ⟨g, hg⟩ := parseRender_obj ms hwf ((renderJS (JS.jobj ms)).length + 2)
    (by omega)
  unfold goUnmarshalMapOk parseTop
  rw [hg]
  simp [skipWs]

/-! ## The scan loops pass over rendered values unchanged -/

/-- Characters with no role in the bracket/string scanners. -/
def plainChar (c : Char) : Bool :=
  !(c = '"' || c = '\\' || c = '{' || c = '[' || c = '}' || c = ']')

/-- Number-literal characters play no role in the scanners. -/
theorem numChar_plain (c : Char) (h : numChar c = true) : plainChar c = true := by
  by_cases hd : c.isDigit = true
  · obtain ⟨-, h1, h2, h3, h4, h5, -, -, -⟩ := digit_facts c hd
    have h6 := digit_ne c hd '\\' (by decide)
    simp [plainChar, h1, h2, h3, h4, h5, h6]
  · unfold numChar at h
    rw [Bool.not_eq_true] at hd
    simp only [hd, Bool.false_or, Bool.or_eq_true, decide_eq_true_eq] at h
    rcases h with ((((rfl | rfl) | rfl) | rfl) | rfl) <;> decide

/-- The hypotheses packed into `plainChar`. -/
theorem plainChar_facts (c : Char) (hp : plainChar c = true) :
    ¬c = '"' ∧ ¬c = '\\' ∧ ¬c = '{' ∧ ¬c = '[' ∧ ¬c = '}' ∧ ¬c = ']' := by
  unfold plainChar at hp
  rw [Bool.not_eq_true'] at hp
  simp only [Bool.or_eq_false_iff, decide_eq_false_iff_not] at hp
  exact ⟨hp.1.1.1.1.1, hp.1.1.1.1.2, hp.1.1.1.2, hp.1.1.2, hp.1.2, hp.2⟩

/-- `scanStepT` on a plain character outside a string. -/
theorem stepT_plain (stk : List Char) (c : Char) (hp : plainChar c = true) :
    scanStepT ⟨stk, false, false⟩ c = ⟨[c], true, ⟨stk, false, false⟩⟩ := by
  obtain ⟨h1, h2, h3, h4, h5, h6⟩ := plainChar_facts c hp
  simp [scanStepT, qtoggle, h1, h2, h3, h4, h5, h6]

/-- `scanStepT` on an in-string character other than quote and
backslash. -/
theorem stepT_instr (stk : List Char) (c : Char) (h1 : ¬c = '"') (h2 : ¬c = '\\') :
    scanStepT ⟨stk, true, false⟩ c = ⟨[c], true, ⟨stk, true, false⟩⟩ := by
  simp [scanStepT, qtoggle, h1, h2]

/-- `scanStepT` on a string-opening quote. -/
theorem stepT_quote_open (stk : List Char) :
    scanStepT ⟨stk, false, false⟩ '"' = ⟨['"'], true, ⟨stk, true, false⟩⟩ := rfl

/-- `scanStepT` on a string-closing quote. -/
theorem stepT_quote_close (stk : List Char) :
    scanStepT ⟨stk, true, false⟩ '"' = ⟨['"'], true, ⟨stk, false, false⟩⟩ := rfl

/-- `scanStepT` on a backslash. -/
theorem stepT_backslash (stk : List Char) (b : Bool) :
    scanStepT ⟨stk, b, false⟩ '\\' = ⟨['\\'], false, ⟨stk, b, true⟩⟩ := rfl

/-- `scanStepT` on the character after a backslash. -/
theorem stepT_escaped (stk : List Char) (b : Bool) (c : Char) :
    scanStepT ⟨stk, b, true⟩ c = ⟨[c], false, ⟨stk, b, false⟩⟩ := rfl

/-- `scanStepT` on an opening brace. -/
theorem stepT_openBrace (stk : List Char) :
    scanStepT ⟨stk, false, false⟩ '{' = ⟨['{'], true, ⟨'{' :: stk, false, false⟩⟩ := rfl

/-- `scanStepT` on an opening square bracket. -/
theorem stepT_openBrack (stk : List Char) :
    scanStepT ⟨stk, false, false⟩ '[' = ⟨['['], true, ⟨'[' :: stk, false, false⟩⟩ := rfl

/-- `scanStepT` on a matched closing brace. -/
theorem stepT_closeBrace (stk : List Char) :
    scanStepT ⟨'{' :: stk, false, false⟩ '}' = ⟨['}'], true, ⟨stk, false, false⟩⟩ := rfl

/-- `scanStepT` on a matched closing square bracket. -/
theorem stepT_closeBrack (stk : List Char) :
    scanStepT ⟨'[' :: stk, false, false⟩ ']' = ⟨[']'], true, ⟨stk, false, false⟩⟩ := rfl

/-- `scanStepR` on a plain character outside a string. -/
theorem stepR_plain (stk : List Char) (c : Char) (hp : plainChar c = true) :
    scanStepR ⟨stk, false, false⟩ c = ⟨stk, false, false⟩ := by
  obtain ⟨h1, h2, h3, h4, h5, h6⟩ := plainChar_facts c hp
  simp [scanStepR, bracketR, qtoggle, h1, h2, h3, h4, h5, h6]

/-- `scanStepR` on an in-string character other than quote and
backslash. -/
theorem stepR_instr (stk : List Char) (c : Char) (h1 : ¬c = '"') (h2 : ¬c = '\\') :
    scanStepR ⟨stk, true, false⟩ c = ⟨stk, true, false⟩ := by
  simp [scanStepR, bracketR, qtoggle, h1, h2]

/-- `scanStepR` on a string-opening quote. -/
theorem stepR_quote_open (stk : List Char) :
    scanStepR ⟨stk, false, false⟩ '"' = ⟨stk, true, false⟩ := rfl

/-- `scanStepR` on a string-closing quote. -/
theorem stepR_quote_close (stk : List Char) :
    scanStepR ⟨stk, true, false⟩ '"' = ⟨stk, false, false⟩ := rfl

/-- `scanStepR` on an in-string backslash. -/
theorem stepR_backslash (stk : List Char) :
    scanStepR ⟨stk, true, false⟩ '\\' = ⟨stk, true, true⟩ := rfl

/-- `scanStepR` on the in-string character after a backslash. -/
theorem stepR_escaped (stk : List Char) (c : Char) :
    scanStepR ⟨stk, true, true⟩ c = ⟨stk, true, false⟩ := rfl

/-- `scanStepR` on an opening brace. -/
theorem stepR_openBrace (stk : List Char) :
    scanStepR ⟨stk, false, false⟩ '{' = ⟨'{' :: stk, false, false⟩ := rfl

/-- `scanStepR` on an opening square bracket. -/
theorem stepR_openBrack (stk : List Char) :
    scanStepR ⟨stk, false, false⟩ '[' = ⟨'[' :: stk, false, false⟩ := rfl

/-- `scanStepR` on a matched closing brace. -/
theorem stepR_closeBrace (stk : List Char) :
    scanStepR ⟨'{' :: stk, false, false⟩ '}' = ⟨stk, false, false⟩ := rfl

/-- `scanStepR` on a matched closing square bracket. -/
theorem stepR_closeBrack (stk : List Char) :
    scanStepR ⟨'[' :: stk, false, false⟩ ']' = ⟨stk, false, false⟩ := rfl

/-- Advancing the `ExtractJSON` scan loop by one character that does
not reach a successful early decode. -/
theorem exLoopT_cons (c : Char) (rest : List Char) (st : ScanSt) (acc : List Char)
    (h : ¬((scanStepT st c).check = true ∧ (scanStepT st c).st.stack = [] ∧
      (scanStepT st c).st.inString = false ∧ c = '}')) :
    exLoopT (c :: rest) st acc =
      exLoopT rest (scanStepT st c).st ((scanStepT st c).out ++ acc) := by
  rw [exLoopT]
  rw [if_neg h]

/-- Advancing the root `extractJSON` scan loop by one character that
does not reach a successful early decode. -/
theorem exLoopR_cons (c : Char) (rest : List Char) (st : ScanSt) (acc : List Char)
    (h : ¬((scanStepR st c).stack = [] ∧ (scanStepR st c).inString = false ∧
      c = '}')) :
    exLoopR (c :: rest) st acc = exLoopR rest (scanStepR st c) (c :: acc) := by
  rw [exLoopR]
  rw [if_neg h]

/-- The `ExtractJSON` loop keeps a plain character and stays in
state. -/
theorem exT_plain (c : Char) (l stk acc : List Char) (hp : plainChar c = true) :
    exLoopT (c :: l) ⟨stk, false, false⟩ acc =
      exLoopT l ⟨stk, false, false⟩ (c :: acc) := by
  have hc : ¬c = '}' := (plainChar_facts c hp).2.2.2.2.1
  have hs := stepT_plain stk c hp
  rw [exLoopT_cons c l ⟨stk, false, false⟩ acc (by rw [hs]; simp [hc]), hs]
  rfl

/-- The `ExtractJSON` loop keeps an in-string character. -/
theorem exT_instr (c : Char) (l stk acc : List Char) (h1 : ¬c = '"')
    (h2 : ¬c = '\\') :
    exLoopT (c :: l) ⟨stk, true, false⟩ acc =
      exLoopT l ⟨stk, true, false⟩ (c :: acc) := by
  have hs := stepT_instr stk c h1 h2
  rw [exLoopT_cons c l ⟨stk, true, false⟩ acc (by rw [hs]; simp), hs]
  rfl

/-- The `ExtractJSON` loop on a string-opening quote. -/
theorem exT_quote_open (l stk acc : List Char) :
    exLoopT ('"' :: l) ⟨stk, false, false⟩ acc =
      exLoopT l ⟨stk, true, false⟩ ('"' :: acc) := by
  have hs := stepT_quote_open stk
  rw [exLoopT_cons _ l ⟨stk, false, false⟩ acc (by rw [hs]; simp), hs]
  rfl

/-- The `ExtractJSON` loop on a string-closing quote. -/
theorem exT_quote_close (l stk acc : List Char) :
    exLoopT ('"' :: l) ⟨stk, true, false⟩ acc =
      exLoopT l ⟨stk, false, false⟩ ('"' :: acc) := by
  have hs := stepT_quote_close stk
  rw [exLoopT_cons _ l ⟨stk, true, false⟩ acc (by rw [hs]; simp), hs]
  rfl

/-- The `ExtractJSON` loop on a backslash. -/
theorem exT_backslash (l stk acc : List Char) (b : Bool) :
    exLoopT ('\\' :: l) ⟨stk, b, false⟩ acc =
      exLoopT l ⟨stk, b, true⟩ ('\\' :: acc) := by
  have hs := stepT_backslash stk b
  rw [exLoopT_cons _ l ⟨stk, b, false⟩ acc (by rw [hs]; simp), hs]
  rfl

/-- The `ExtractJSON` loop on the character after a backslash. -/
theorem exT_escaped (c : Char) (l stk acc : List Char) (b : Bool) :
    exLoopT (c :: l) ⟨stk, b, true⟩ acc =
      exLoopT l ⟨stk, b, false⟩ (c :: acc) := by
  have hs := stepT_escaped stk b c
  rw [exLoopT_cons _ l ⟨stk, b, true⟩ acc (by rw [hs]; simp), hs]
  rfl

/-- The `ExtractJSON` loop on an opening brace. -/
theorem exT_openBrace (l stk acc : List Char) :
    exLoopT ('{' :: l) ⟨stk, false, false⟩ acc =
      exLoopT l ⟨'{' :: stk, false, false⟩ ('{' :: acc) := by
  have hs := stepT_openBrace stk
  rw [exLoopT_cons _ l ⟨stk, false, false⟩ acc (by rw [hs]; simp), hs]
  rfl

/-- The `ExtractJSON` loop on an opening square bracket. -/
theorem exT_openBrack (l stk acc : List Char) :
    exLoopT ('[' :: l) ⟨stk, false, false⟩ acc =
      exLoopT l ⟨'[' :: stk, false, false⟩ ('[' :: acc) := by
  have hs := stepT_openBrack stk
  rw [exLoopT_cons _ l ⟨stk, false, false⟩ acc (by rw [hs]; simp), hs]
  rfl

/-- The `ExtractJSON` loop on a closing brace matching an inner
open brace (the remaining stack is non-empty, so no decode is
attempted). -/
theorem exT_closeBrace (l stk acc : List Char) (hne : ¬stk = []) :
    exLoopT ('}' :: l) ⟨'{' :: stk, false, false⟩ acc =
      exLoopT l ⟨stk, false, false⟩ ('}' :: acc) := by
  have hs := stepT_closeBrace stk
  rw [exLoopT_cons _ l ⟨'{' :: stk, false, false⟩ acc (by rw [hs]; simp [hne]), hs]
  rfl

/-- The `ExtractJSON` loop on a matched closing square bracket. -/
theorem exT_closeBrack (l stk acc : List Char) :
    exLoopT (']' :: l) ⟨'[' :: stk, false, false⟩ acc =
      exLoopT l ⟨stk, false, false⟩ (']' :: acc) := by
  have hs := stepT_closeBrack stk
  rw [exLoopT_cons _ l ⟨'[' :: stk, false, false⟩ acc (by rw [hs]; simp), hs]
  rfl

/-- The root `extractJSON` loop keeps a plain character and stays in
state. -/
theorem exR_plain (c : Char) (l stk acc : List Char) (hp : plainChar c = true) :
    exLoopR (c :: l) ⟨stk, false, false⟩ acc =
      exLoopR l ⟨stk, false, false⟩ (c :: acc) := by
  have hc : ¬c = '}' := (plainChar_facts c hp).2.2.2.2.1
  have hs := stepR_plain stk c hp
  rw [exLoopR_cons c l ⟨stk, false, false⟩ acc (by rw [hs]; simp [hc]), hs]

/-- The root `extractJSON` loop keeps an in-string character. -/
theorem exR_instr (c : Char) (l stk acc : List Char) (h1 : ¬c = '"')
    (h2 : ¬c = '\\') :
    exLoopR (c :: l) ⟨stk, true, false⟩ acc =
      exLoopR l ⟨stk, true, false⟩ (c :: acc) := by
  have hs := stepR_instr stk c h1 h2
  rw [exLoopR_cons c l ⟨stk, true, false⟩ acc (by rw [hs]; simp), hs]

/-- The root `extractJSON` loop on a string-opening quote. -/
theorem exR_quote_open (l stk acc : List Char) :
    exLoopR ('"' :: l) ⟨stk, false, false⟩ acc =
      exLoopR l ⟨stk, true, false⟩ ('"' :: acc) := by
  have hs := stepR_quote_open stk
  rw [exLoopR_cons _ l ⟨stk, false, false⟩ acc (by rw [hs]; simp), hs]

/-- The root `extractJSON` loop on a string-closing quote. -/
theorem exR_quote_close (l stk acc : List Char) :
    exLoopR ('"' :: l) ⟨stk, true, false⟩ acc =
      exLoopR l ⟨stk, false, false⟩ ('"' :: acc) := by
  have hs := stepR_quote_close stk
  rw [exLoopR_cons _ l ⟨stk, true, false⟩ acc (by rw [hs]; simp), hs]

/-- The root `extractJSON` loop on an in-string backslash. -/
theorem exR_backslash (l stk acc : List Char) :
    exLoopR ('\\' :: l) ⟨stk, true, false⟩ acc =
      exLoopR l ⟨stk, true, true⟩ ('\\' :: acc) := by
  have hs := stepR_backslash stk
  rw [exLoopR_cons _ l ⟨stk, true, false⟩ acc (by rw [hs]; simp), hs]

/-- The root `extractJSON` loop on the in-string character after a
backslash. -/
theorem exR_escaped (c : Char) (l stk acc : List Char) :
    exLoopR (c :: l) ⟨stk, true, true⟩ acc =
      exLoopR l ⟨stk, true, false⟩ (c :: acc) := by
  have hs := stepR_escaped stk c
  rw [exLoopR_cons _ l ⟨stk, true, true⟩ acc (by rw [hs]; simp), hs]

/-- The root `extractJSON` loop on an opening brace. -/
theorem exR_openBrace (l stk acc : List Char) :
    exLoopR ('{' :: l) ⟨stk, false, false⟩ acc =
      exLoopR l ⟨'{' :: stk, false, false⟩ ('{' :: acc) := by
  have hs := stepR_openBrace stk
  rw [exLoopR_cons _ l ⟨stk, false, false⟩ acc (by rw [hs]; simp), hs]

/-- The root `extractJSON` loop on an opening square bracket. -/
theorem exR_openBrack (l stk acc : List Char) :
    exLoopR ('[' :: l) ⟨stk, false, false⟩ acc =
      exLoopR l ⟨'[' :: stk, false, false⟩ ('[' :: acc) := by
  have hs := stepR_openBrack stk
  rw [exLoopR_cons _ l ⟨stk, false, false⟩ acc (by rw [hs]; simp), hs]

/-- The root `extractJSON` loop on a closing brace matching an inner
open brace. -/
theorem exR_closeBrace (l stk acc : List Char) (hne : ¬stk = []) :
    exLoopR ('}' :: l) ⟨'{' :: stk, false, false⟩ acc =
      exLoopR l ⟨stk, false, false⟩ ('}' :: acc) := by
  have hs := stepR_closeBrace stk
  rw [exLoopR_cons _ l ⟨'{' :: stk, false, false⟩ acc (by rw [hs]; simp [hne]), hs]

/-- The root `extractJSON` loop on a matched closing square
bracket. -/
theorem exR_closeBrack (l stk acc : List Char) :
    exLoopR (']' :: l) ⟨'[' :: stk, false, false⟩ acc =
      exLoopR l ⟨stk, false, false⟩ (']' :: acc) := by
  have hs := stepR_closeBrack stk
  rw [exLoopR_cons _ l ⟨'[' :: stk, false, false⟩ acc (by rw [hs]; simp), hs]

/-- Unfolding of the renderer's string escaping. -/
theorem escStr_cons (c : Char) (s : List Char) :
    escStr (c :: s) =
      (if c = '"' then ['\\', '"'] else if c = '\\' then ['\\', '\\'] else [c]) ++
        escStr s := by
  simp [escStr]

/-- The `ExtractJSON` loop keeps an escaped string body and returns to
the in-string state. -/
theorem exT_escSeg : ∀ (s l stk acc : List Char),
    exLoopT (escStr s ++ l) ⟨stk, true, false⟩ acc =
      exLoopT l ⟨stk, true, false⟩ ((escStr s).reverse ++ acc) := by
  intro s
  induction s with
  | nil => intro l stk acc; simp [escStr]
  | cons c t ih =>
    intro l stk acc
    rw [escStr_cons]
    by_cases h1 : c = '"'
    · subst h1
      rw [if_pos rfl]
      rw [show (['\\', '"'] ++ escStr t) ++ l = '\\' :: '"' :: (escStr t ++ l) from
        by simp]
      rw [exT_backslash _ stk acc true, exT_escaped '"' _ stk _ true, ih]
      congr 1
      simp
    · rw [if_neg h1]
      by_cases h2 : c = '\\'
      · subst h2
        rw [if_pos rfl]
        rw [show (['\\', '\\'] ++ escStr t) ++ l = '\\' :: '\\' :: (escStr t ++ l)
          from by simp]
        rw [exT_backslash _ stk acc true, exT_escaped '\\' _ stk _ true, ih]
        congr 1
        simp
      · rw [if_neg h2]
        rw [show ([c] ++ escStr t) ++ l = c :: (escStr t ++ l) from by simp]
        rw [exT_instr c _ stk acc h1 h2, ih]
        congr 1
        simp

/-- The `ExtractJSON` loop keeps a whole rendered string token. -/
theorem exT_strTok (s l stk acc : List Char) :
    exLoopT (('"' :: escStr s ++ ['"']) ++ l) ⟨stk, false, false⟩ acc =
      exLoopT l ⟨stk, false, false⟩ (('"' :: escStr s ++ ['"']).reverse ++ acc) := by
  rw [show ('"' :: escStr s ++ ['"']) ++ l = '"' :: (escStr s ++ ('"' :: l)) from
    by simp]
  rw [exT_quote_open, exT_escSeg, exT_quote_close]
  congr 1
  simp

/-- The `ExtractJSON` loop keeps a run of plain characters. -/
theorem exT_lit : ∀ (lit l stk acc : List Char), lit.all plainChar = true →
    exLoopT (lit ++ l) ⟨stk, false, false⟩ acc =
      exLoopT l ⟨stk, false, false⟩ (lit.reverse ++ acc) := by
  intro lit
  induction lit with
  | nil => intro l stk acc _; simp
  | cons c t ih =>
    intro l stk acc hall
    rw [List.all_cons, Bool.and_eq_true] at hall
    rw [List.cons_append, exT_plain c _ stk acc hall.1, ih _ stk _ hall.2]
    congr 1
    simp

/-- The root `extractJSON` loop keeps an escaped string body and
returns to the in-string state. -/
theorem exR_escSeg : ∀ (s l stk acc : List Char),
    exLoopR (escStr s ++ l) ⟨stk, true, false⟩ acc =
      exLoopR l ⟨stk, true, false⟩ ((escStr s).reverse ++ acc) := by
  intro s
  induction s with
  | nil => intro l stk acc; simp [escStr]
  | cons c t ih =>
    intro l stk acc
    rw [escStr_cons]
    by_cases h1 : c = '"'
    · subst h1
      rw [if_pos rfl]
      rw [show (['\\', '"'] ++ escStr t) ++ l = '\\' :: '"' :: (escStr t ++ l) from
        by simp]
      rw [exR_backslash _ stk acc, exR_escaped '"' _ stk _, ih]
      congr 1
      simp
    · rw [if_neg h1]
      by_cases h2 : c = '\\'
      · subst h2
        rw [if_pos rfl]
        rw [show (['\\', '\\'] ++ escStr t) ++ l = '\\' :: '\\' :: (escStr t ++ l)
          from by simp]
        rw [exR_backslash _ stk acc, exR_escaped '\\' _ stk _, ih]
        congr 1
        simp
      · rw [if_neg h2]
        rw [show ([c] ++ escStr t) ++ l = c :: (escStr t ++ l) from by simp]
        rw [exR_instr c _ stk acc h1 h2, ih]
        congr 1
        simp

/-- The root `extractJSON` loop keeps a whole rendered string
token. -/
theorem exR_strTok (s l stk acc : List Char) :
    exLoopR (('"' :: escStr s ++ ['"']) ++ l) ⟨stk, false, false⟩ acc =
      exLoopR l ⟨stk, false, false⟩ (('"' :: escStr s ++ ['"']).reverse ++ acc) := by
  rw [show ('"' :: escStr s ++ ['"']) ++ l = '"' :: (escStr s ++ ('"' :: l)) from
    by simp]
  rw [exR_quote_open, exR_escSeg, exR_quote_close]
  congr 1
  simp

/-- The root `extractJSON` loop keeps a run of plain characters. -/
theorem exR_lit : ∀ (lit l stk acc : List Char), lit.all plainChar = true →
    exLoopR (lit ++ l) ⟨stk, false, false⟩ acc =
      exLoopR l ⟨stk, false, false⟩ (lit.reverse ++ acc) := by
  intro lit
  induction lit with
  | nil => intro l stk acc _; simp
  | cons c t ih =>
    intro l stk acc hall
    rw [List.all_cons, Bool.and_eq_true] at hall
    rw [List.cons_append, exR_plain c _ stk acc hall.1, ih _ stk _ hall.2]
    congr 1
    simp

/-- The `ExtractJSON` scan loop passes over any rendered well-formed
value while the enclosing stack is non-empty: every character is kept
and the scanner returns to its entry state without attempting a
decode. -/
theorem scanJS_T : ∀ {k : JKind} (v : JS k), ∀ (l stk acc : List Char),
    wfJS v = true → ¬stk = [] →
    exLoopT (renderJS v ++ l) ⟨stk, false, false⟩ acc =
      exLoopT l ⟨stk, false, false⟩ ((renderJS v).reverse ++ acc) := by
  intro k v
  induction v with
  | jstr s =>
    intro l stk acc _ _
    exact exT_strTok s l stk acc
  | jnum lit =>
    intro l stk acc hwf _
    have hall : lit.all plainChar = true := by
      have h1 := validNum_all lit hwf
      rw [List.all_eq_true] at h1 ⊢
      intro x hx
      exact numChar_plain x (h1 x hx)
    exact exT_lit lit l stk acc hall
  | jtrue =>
    intro l stk acc _ _
    exact exT_lit (cs "true") l stk acc (by decide)
  | jfalse =>
    intro l stk acc _ _
    exact exT_lit (cs "false") l stk acc (by decide)
  | jnull =>
    intro l stk acc _ _
    exact exT_lit (cs "null") l stk acc (by decide)
  | jarr xs ih =>
    intro l stk acc hwf hne
    cases xs with
    | enil =>
      rw [show renderJS (JS.jarr JS.enil) ++ l = '[' :: (']' :: l) from rfl]
      rw [exT_openBrack, exT_closeBrack]
      rfl
    | econs h tl =>
      rw [show renderJS (JS.jarr (JS.econs h tl)) ++ l =
          '[' :: (renderJS (JS.econs h tl) ++ (']' :: l)) from by
        show ('[' :: renderJS (JS.econs h tl) ++ [']']) ++ l = _
        simp]
      rw [exT_openBrack, ih _ ('[' :: stk) _ hwf (by simp), exT_closeBrack]
      congr 1
      rw [show renderJS (JS.jarr (JS.econs h tl)) =
        '[' :: renderJS (JS.econs h tl) ++ [']'] from rfl]
      simp
  | jobj ms ih =>
    intro l stk acc hwf hne
    cases ms with
    | mnil =>
      rw [show renderJS (JS.jobj JS.mnil) ++ l = '{' :: ('}' :: l) from rfl]
      rw [exT_openBrace, exT_closeBrace _ _ _ hne]
      rfl
    | mcons k2 v2 tl2 =>
      rw [show renderJS (JS.jobj (JS.mcons k2 v2 tl2)) ++ l =
          '{' :: (renderJS (JS.mcons k2 v2 tl2) ++ ('}' :: l)) from by
        show ('{' :: renderJS (JS.mcons k2 v2 tl2) ++ ['}']) ++ l = _
        simp]
      rw [exT_openBrace, ih _ ('{' :: stk) _ hwf (by simp),
        exT_closeBrace _ _ _ hne]
      congr 1
      rw [show renderJS (JS.jobj (JS.mcons k2 v2 tl2)) =
        '{' :: renderJS (JS.mcons k2 v2 tl2) ++ ['}'] from rfl]
      simp
  | enil =>
    intro l stk acc _ _
    rfl
  | econs h tl ih1 ih2 =>
    intro l stk acc hwf hne
    have hw : wfJS h = true ∧ wfJS tl = true := by
      have : (wfJS h && wfJS tl) = true := hwf
      rwa [Bool.and_eq_true] at this
    cases tl with
    | enil =>
      exact ih1 l stk acc hw.1 hne
    | econs h2 tl2 =>
      rw [show renderJS (JS.econs h (JS.econs h2 tl2)) ++ l =
          renderJS h ++ (',' :: (renderJS (JS.econs h2 tl2) ++ l)) from by
        show (renderJS h ++ ',' :: renderJS (JS.econs h2 tl2)) ++ l = _
        simp]
      rw [ih1 _ stk acc hw.1 hne, exT_plain ',' _ stk _ (by decide),
        ih2 _ stk _ hw.2 hne]
      congr 1
      rw [show renderJS (JS.econs h (JS.econs h2 tl2)) =
        renderJS h ++ ',' :: renderJS (JS.econs h2 tl2) from rfl]
      simp
  | mnil =>
    intro l stk acc _ _
    rfl
  | mcons k v tl ih1 ih2 =>
    intro l stk acc hwf hne
    have hw : (k.all (fun c => 0x20 ≤ c.toNat) = true ∧ wfJS v = true) ∧
        wfJS tl = true := by
      have : ((k.all (fun c => 0x20 ≤ c.toNat) && wfJS v) && wfJS tl) = true := hwf
      rw [Bool.and_eq_true, Bool.and_eq_true] at this
      exact this
    cases tl with
    | mnil =>
      rw [show renderJS (JS.mcons k v JS.mnil) ++ l =
          ('"' :: escStr k ++ ['"']) ++ (':' :: (renderJS v ++ l)) from by
        show ('"' :: escStr k ++ '"' :: ':' :: renderJS v) ++ l = _
        simp]
      rw [exT_strTok k _ stk acc, exT_plain ':' _ stk _ (by decide),
        ih1 l stk _ hw.1.2 hne]
      congr 1
      rw [show renderJS (JS.mcons k v JS.mnil) =
        '"' :: escStr k ++ '"' :: ':' :: renderJS v from rfl]
      simp
    | mcons k2 v2 tl2 =>
      rw [show renderJS (JS.mcons k v (JS.mcons k2 v2 tl2)) ++ l =
          ('"' :: escStr k ++ ['"']) ++ (':' :: (renderJS v ++
            (',' :: (renderJS (JS.mcons k2 v2 tl2) ++ l)))) from by
        show ('"' :: escStr k ++ '"' :: ':' :: renderJS v ++
          ',' :: renderJS (JS.mcons k2 v2 tl2)) ++ l = _
        simp]
      rw [exT_strTok k _ stk acc, exT_plain ':' _ stk _ (by decide),
        ih1 _ stk _ hw.1.2 hne, exT_plain ',' _ stk _ (by decide),
        ih2 _ stk _ hw.2 hne]
      congr 1
      rw [show renderJS (JS.mcons k v (JS.mcons k2 v2 tl2)) =
        '"' :: escStr k ++ '"' :: ':' :: renderJS v ++
          ',' :: renderJS (JS.mcons k2 v2 tl2) from rfl]
      simp

/-- The root `extractJSON` scan loop passes over any rendered
well-formed value while the enclosing stack is non-empty. -/
theorem scanJS_R : ∀ {k : JKind} (v : JS k), ∀ (l stk acc : List Char),
    wfJS v = true → ¬stk = [] →
    exLoopR (renderJS v ++ l) ⟨stk, false, false⟩ acc =
      exLoopR l ⟨stk, false, false⟩ ((renderJS v).reverse ++ acc) := by
  intro k v
  induction v with
  | jstr s =>
    intro l stk acc _ _
    exact exR_strTok s l stk acc
  | jnum lit =>
    intro l stk acc hwf _
    have hall : lit.all plainChar = true := by
      have h1 := validNum_all lit hwf
      rw [List.all_eq_true] at h1 ⊢
      intro x hx
      exact numChar_plain x (h1 x hx)
    exact exR_lit lit l stk acc hall
  | jtrue =>
    intro l stk acc _ _
    exact exR_lit (cs "true") l stk acc (by decide)
  | jfalse =>
    intro l stk acc _ _
    exact exR_lit (cs "false") l stk acc (by decide)
  | jnull =>
    intro l stk acc _ _
    exact exR_lit (cs "null") l stk acc (by decide)
  | jarr xs ih =>
    intro l stk acc hwf hne
    cases xs with
    | enil =>
      rw [show renderJS (JS.jarr JS.enil) ++ l = '[' :: (']' :: l) from rfl]
      rw [exR_openBrack, exR_closeBrack]
      rfl
    | econs h tl =>
      rw [show renderJS (JS.jarr (JS.econs h tl)) ++ l =
          '[' :: (renderJS (JS.econs h tl) ++ (']' :: l)) from by
        show ('[' :: renderJS (JS.econs h tl) ++ [']']) ++ l = _
        simp]
      rw [exR_openBrack, ih _ ('[' :: stk) _ hwf (by simp), exR_closeBrack]
      congr 1
      rw [show renderJS (JS.jarr (JS.econs h tl)) =
        '[' :: renderJS (JS.econs h tl) ++ [']'] from rfl]
      simp
  | jobj ms ih =>
    intro l stk acc hwf hne
    cases ms with
    | mnil =>
      rw [show renderJS (JS.jobj JS.mnil) ++ l = '{' :: ('}' :: l) from rfl]
      rw [exR_openBrace, exR_closeBrace _ _ _ hne]
      rfl
    | mcons k2 v2 tl2 =>
      rw [show renderJS (JS.jobj (JS.mcons k2 v2 tl2)) ++ l =
          '{' :: (renderJS (JS.mcons k2 v2 tl2) ++ ('}' :: l)) from by
        show ('{' :: renderJS (JS.mcons k2 v2 tl2) ++ ['}']) ++ l = _
        simp]
      rw [exR_openBrace, ih _ ('{' :: stk) _ hwf (by simp),
        exR_closeBrace _ _ _ hne]
      congr 1
      rw [show renderJS (JS.jobj (JS.mcons k2 v2 tl2)) =
        '{' :: renderJS (JS.mcons k2 v2 tl2) ++ ['}'] from rfl]
      simp
  | enil =>
    intro l stk acc _ _
    rfl
  | econs h tl ih1 ih2 =>
    intro l stk acc hwf hne
    have hw : wfJS h = true ∧ wfJS tl = true := by
      have : (wfJS h && wfJS tl) = true := hwf
      rwa [Bool.and_eq_true] at this
    cases tl with
    | enil =>
      exact ih1 l stk acc hw.1 hne
    | econs h2 tl2 =>
      rw [show renderJS (JS.econs h (JS.econs h2 tl2)) ++ l =
          renderJS h ++ (',' :: (renderJS (JS.econs h2 tl2) ++ l)) from by
        show (renderJS h ++ ',' :: renderJS (JS.econs h2 tl2)) ++ l = _
        simp]
      rw [ih1 _ stk acc hw.1 hne, exR_plain ',' _ stk _ (by decide),
        ih2 _ stk _ hw.2 hne]
      congr 1
      rw [show renderJS (JS.econs h (JS.econs h2 tl2)) =
        renderJS h ++ ',' :: renderJS (JS.econs h2 tl2) from rfl]
      simp
  | mnil =>
    intro l stk acc _ _
    rfl
  | mcons k v tl ih1 ih2 =>
    intro l stk acc hwf hne
    have hw : (k.all (fun c => 0x20 ≤ c.toNat) = true ∧ wfJS v = true) ∧
        wfJS tl = true := by
      have : ((k.all (fun c => 0x20 ≤ c.toNat) && wfJS v) && wfJS tl) = true := hwf
      rw [Bool.and_eq_true, Bool.and_eq_true] at this
      exact this
    cases tl with
    | mnil =>
      rw [show renderJS (JS.mcons k v JS.mnil) ++ l =
          ('"' :: escStr k ++ ['"']) ++ (':' :: (renderJS v ++ l)) from by
        show ('"' :: escStr k ++ '"' :: ':' :: renderJS v) ++ l = _
        simp]
      rw [exR_strTok k _ stk acc, exR_plain ':' _ stk _ (by decide),
        ih1 l stk _ hw.1.2 hne]
      congr 1
      rw [show renderJS (JS.mcons k v JS.mnil) =
        '"' :: escStr k ++ '"' :: ':' :: renderJS v from rfl]
      simp
    | mcons k2 v2 tl2 =>
      rw [show renderJS (JS.mcons k v (JS.mcons k2 v2 tl2)) ++ l =
          ('"' :: escStr k ++ ['"']) ++ (':' :: (renderJS v ++
            (',' :: (renderJS (JS.mcons k2 v2 tl2) ++ l)))) from by
        show ('"' :: escStr k ++ '"' :: ':' :: renderJS v ++
          ',' :: renderJS (JS.mcons k2 v2 tl2)) ++ l = _
        simp]
      rw [exR_strTok k _ stk acc, exR_plain ':' _ stk _ (by decide),
        ih1 _ stk _ hw.1.2 hne, exR_plain ',' _ stk _ (by decide),
        ih2 _ stk _ hw.2 hne]
      congr 1
      rw [show renderJS (JS.mcons k v (JS.mcons k2 v2 tl2)) =
        '"' :: escStr k ++ '"' :: ':' :: renderJS v ++
          ',' :: renderJS (JS.mcons k2 v2 tl2) from rfl]
      simp

/-! ## Surrounding whitespace and the `fixGitArgs` passes on clean input -/

/-- `dropWhile` passes over a block of characters satisfying the
predicate. -/
theorem dropWhile_all_append (p : Char → Bool) : ∀ (l r : List Char),
    l.all p = true → (l ++ r).dropWhile p = r.dropWhile p := by
  intro l
  induction l with
  | nil => intro r _; rfl
  | cons c t ih =>
    intro r hall
    rw [List.all_cons, Bool.and_eq_true] at hall
    rw [List.cons_append, List.dropWhile_cons, if_pos hall.1]
    exact ih r hall.2

/-- `dropWhile` keeps a list whose head fails the predicate. -/
theorem dropWhile_head_keep (p : Char → Bool) (c : Char) (t : List Char)
    (h : p c = false) : (c :: t).dropWhile p = c :: t := by
  rw [List.dropWhile_cons, if_neg (by simp [h])]

/-- Go `strings.TrimSpace` strips exactly the surrounding whitespace
from a block with non-space first and last characters. -/
theorem trimSpace_wrap (ws1 mid ws2 : List Char)
    (h1 : ws1.all goSpace = true) (h2 : ws2.all goSpace = true)
    (c d : Char) (t : List Char) (hmid : mid = c :: t)
    (hc : goSpace c = false) (hlast : mid.getLast? = some d)
    (hd : goSpace d = false) :
    trimSpace (ws1 ++ mid ++ ws2) = mid := by
  unfold trimSpace
  rw [show ws1 ++ mid ++ ws2 = ws1 ++ (mid ++ ws2) from by simp]
  rw [dropWhile_all_append goSpace ws1 (mid ++ ws2) h1]
  rw [hmid, List.cons_append, dropWhile_head_keep goSpace c _ hc,
    ← List.cons_append, ← hmid]
  rw [List.reverse_append]
  rw [dropWhile_all_append goSpace ws2.reverse mid.reverse
    (by rwa [List.all_reverse])]
  obtain ⟨t2, ht2⟩ : ∃ t2, mid.reverse = d :: t2 := by
    have hh := headRev mid
    rw [hlast] at hh
    rcases hrev : mid.reverse with _ | ⟨x, xs⟩
    · rw [hrev] at hh
      simp at hh
    · rw [hrev] at hh
      simp at hh
      exact ⟨xs, by rw [hh]⟩
  rw [ht2, dropWhile_head_keep goSpace d t2 hd, ← ht2, List.reverse_reverse]

/-- The rendering of an object starts with `{` and ends with `}`. -/
theorem renderObj_shape (ms : JS .kmems) :
    ∃ t, renderJS (JS.jobj ms) = '{' :: t ∧
      (renderJS (JS.jobj ms)).getLast? = some '}' := by
  cases ms with
  | mnil => exact ⟨['}'], rfl, rfl⟩
  | mcons k v tl =>
    refine ⟨renderJS (JS.mcons k v tl) ++ ['}'], rfl, ?_⟩
    rw [show renderJS (JS.jobj (JS.mcons k v tl)) =
      ('{' :: renderJS (JS.mcons k v tl)) ++ ['}'] from rfl]
    exact lastAppend _ ['}'] '}' rfl

/-- Splitting `containsSub` at the head of the searched string. -/
theorem containsSub_tail (c : Char) (rest pat : List Char)
    (h : containsSub (c :: rest) pat = false) :
    litAt pat (c :: rest) = false ∧ containsSub rest pat = false := by
  unfold containsSub at h
  rwa [Bool.or_eq_false_iff] at h

/-- The case-1 pass of `fixGitArgs` is the identity on input without
the literal `"args":`. -/
theorem fga1F_id : ∀ (n : Nat) (s : List Char), containsSub s argsLit = false →
    fga1F n s = s := by
  intro n
  induction n with
  | zero => intro s _; rfl
  | succ m ih =>
    intro s hs
    cases s with
    | nil => rfl
    | cons c rest =>
      obtain ⟨h1, h2⟩ := containsSub_tail c rest argsLit hs
      rw [fga1F, if_neg (by simp [h1]), ih rest h2]

/-- The case-2 pass of `fixGitArgs` is the identity on input without
the literal `"args":`. -/
theorem fga2F_id : ∀ (n : Nat) (s : List Char), containsSub s argsLit = false →
    fga2F n s = s := by
  intro n
  induction n with
  | zero => intro s _; rfl
  | succ m ih =>
    intro s hs
    cases s with
    | nil => rfl
    | cons c rest =>
      obtain ⟨h1, h2⟩ := containsSub_tail c rest argsLit hs
      rw [fga2F, if_neg (by simp [h1]), ih rest h2]

/-- `fixGitArgs` is the identity on input without the literal
`"args":`. -/
theorem fixGitArgs_id (s : List Char) (h : containsSub s argsLit = false) :
    fixGitArgs s = s := by
  show fga2F ((fga1F (s.length + 1) s).length + 1) (fga1F (s.length + 1) s) = s
  rw [fga1F_id (s.length + 1) s h]
  exact fga2F_id (s.length + 1) s h

/-- Final step of the `ExtractJSON` scan: the closing brace of the
outermost object empties the stack and the early decode succeeds. -/
theorem exT_finalBrace (acc : List Char)
    (hok : goUnmarshalMapOk (tcFix (('}' :: acc).reverse)) = true) :
    exLoopT ['}'] ⟨['{'], false, false⟩ acc =
      Sum.inl (tcFix (('}' :: acc).reverse)) := by
  rw [exLoopT]
  rw [stepT_closeBrace]
  dsimp only
  rw [if_pos ⟨rfl, rfl, rfl, rfl⟩]
  rw [show ((['}'] : List Char) ++ acc) = '}' :: acc from rfl]
  rw [if_pos hok]

/-- Final step of the root `extractJSON` scan: the closing brace of
the outermost object empties the stack and the early decode
succeeds. -/
theorem exR_finalBrace (acc : List Char)
    (hok : goUnmarshalMapOk (('}' :: acc).reverse) = true) :
    exLoopR ['}'] ⟨['{'], false, false⟩ acc =
      Sum.inl (('}' :: acc).reverse) := by
  rw [exLoopR]
  rw [stepR_closeBrace]
  dsimp only
  rw [if_pos ⟨rfl, rfl, rfl⟩]
  rw [if_pos hok]

/-- The `ExtractJSON` scan of a rendered well-formed object returns
the trailing-comma-fixed rendering at the early decode on its final
brace. -/
theorem exLoopT_render_obj (ms : JS .kmems) (hwf : wfJS ms = true)
    (htc : tcFix (renderJS (JS.jobj ms)) = renderJS (JS.jobj ms)) :
    exLoopT (renderJS (JS.jobj ms)) ⟨[], false, false⟩ [] =
      Sum.inl (renderJS (JS.jobj ms)) := by
  cases ms with
  | mnil => decide
  | mcons k v tl =>
    have hR : renderJS (JS.jobj (JS.mcons k v tl)) =
        '{' :: (renderJS (JS.mcons k v tl) ++ ['}']) := by
      show '{' :: renderJS (JS.mcons k v tl) ++ ['}'] = _
      simp
    rw [hR] at htc ⊢
    rw [exLoopT_first, scanJS_T (JS.mcons k v tl) ['}'] ['{'] ['{'] hwf (by simp)]
    rw [exT_finalBrace]
    · congr 1
      rw [show (('}' : Char) ::
          ((renderJS (JS.mcons k v tl)).reverse ++ ['{'])).reverse =
          '{' :: (renderJS (JS.mcons k v tl) ++ ['}']) from by simp]
      exact htc
    · rw [show (('}' : Char) ::
          ((renderJS (JS.mcons k v tl)).reverse ++ ['{'])).reverse =
          '{' :: (renderJS (JS.mcons k v tl) ++ ['}']) from by simp, htc, ← hR]
      exact goUnmarshal_render _ hwf

/-- The root `extractJSON` scan of a rendered well-formed object
returns the rendering unchanged at the early decode on its final
brace. -/
theorem exLoopR_render_obj (ms : JS .kmems) (hwf : wfJS ms = true) :
    exLoopR (renderJS (JS.jobj ms)) ⟨[], false, false⟩ [] =
      Sum.inl (renderJS (JS.jobj ms)) := by
  cases ms with
  | mnil => decide
  | mcons k v tl =>
    have hR : renderJS (JS.jobj (JS.mcons k v tl)) =
        '{' :: (renderJS (JS.mcons k v tl) ++ ['}']) := by
      show '{' :: renderJS (JS.mcons k v tl) ++ ['}'] = _
      simp
    rw [hR]
    rw [exLoopR_first, scanJS_R (JS.mcons k v tl) ['}'] ['{'] ['{'] hwf (by simp)]
    rw [exR_finalBrace]
    · congr 1
      simp
    · rw [show (('}' : Char) ::
          ((renderJS (JS.mcons k v tl)).reverse ++ ['{'])).reverse =
          '{' :: (renderJS (JS.mcons k v tl) ++ ['}']) from by simp, ← hR]
      exact goUnmarshal_render _ hwf

/-- Claim C8 (amended): both copies of `extractJSON` return a clean
well-formed JSON object text unchanged, modulo the surrounding
whitespace, provided the text is invariant under the trailing-comma
rewrite (no `,`-closer sequence occurs inside its strings) and does
not contain the literal `"args":` that triggers the git-args
normaliser; applying either parser again to the returned text then
reproduces it, so the parsers are idempotent on such input. -/
theorem extractJSON_clean_roundtrip (ms : JS .kmems) (ws1 ws2 : List Char)
    (hwf : wfJS ms = true)
    (h1 : ws1.all goSpace = true) (h2 : ws2.all goSpace = true)
    (htc : tcFix (renderJS (JS.jobj ms)) = renderJS (JS.jobj ms))
    (hga : containsSub (ws1 ++ renderJS (JS.jobj ms) ++ ws2) argsLit = false) :
    ExtractJSON (ws1 ++ renderJS (JS.jobj ms) ++ ws2) =
      (renderJS (JS.jobj ms), none) ∧
    extractJSONMain (ws1 ++ renderJS (JS.jobj ms) ++ ws2) =
      (renderJS (JS.jobj ms), none) := by
  obtain ⟨t, hmid, hlast⟩ := renderObj_shape ms
  have htrim : trimSpace (ws1 ++ renderJS (JS.jobj ms) ++ ws2) =
      renderJS (JS.jobj ms) :=
    trimSpace_wrap ws1 (renderJS (JS.jobj ms)) ws2 h1 h2 '{' '}' t hmid
      (by decide) hlast (by decide)
  have hdrop : dropToBrace (renderJS (JS.jobj ms)) =
      some (renderJS (JS.jobj ms)) := by
    rw [hmid, dropToBrace, if_pos rfl]
  constructor
  · unfold ExtractJSON
    rw [htrim, hdrop]
    dsimp only
    rw [exLoopT_render_obj ms hwf htc]
  · unfold extractJSONMain
    rw [fixGitArgs_id _ hga, htrim, hdrop]
    dsimp only
    rw [exLoopR_render_obj ms hwf]

/-- Witness: a concrete clean tool-call object, surrounded by
whitespace, is returned exactly by both parsers. -/
theorem extractJSON_clean_roundtrip_witness :
    ExtractJSON (cs " " ++
        renderJS (JS.jobj (JS.mcons (cs "tool") (JS.jstr (cs "git")) JS.mnil)) ++
        cs "\n") =
      (renderJS (JS.jobj (JS.mcons (cs "tool") (JS.jstr (cs "git")) JS.mnil)),
        none) ∧
    extractJSONMain (cs " " ++
        renderJS (JS.jobj (JS.mcons (cs "tool") (JS.jstr (cs "git")) JS.mnil)) ++
        cs "\n") =
      (renderJS (JS.jobj (JS.mcons (cs "tool") (JS.jstr (cs "git")) JS.mnil)),
        none) :=
  extractJSON_clean_roundtrip
    (JS.mcons (cs "tool") (JS.jstr (cs "git")) JS.mnil) (cs " ") (cs "\n")
    (by decide) (by decide) (by decide) (by decide) (by decide)

/-- Counterexample to claim C8 as stated: each copy of `extractJSON`
can rewrite a clean, well-formed, noise-free JSON object.  The root
copy rewrites the `"args"` member of a git tool call through
`fixGitArgs`, and the `internal/types` copy drops a comma that
precedes a closing bracket inside a string value through the
trailing-comma regex. -/
theorem extractJSON_clean_roundtrip_cex :
    extractJSONMain (cs "\x7b\"args\":\"-n 1\"\x7d") =
      (cs "\x7b\"args\": [\"-n\", \"1\"]\x7d", none) ∧
    ¬extractJSONMain (cs "\x7b\"args\":\"-n 1\"\x7d") =
      (cs "\x7b\"args\":\"-n 1\"\x7d", none) ∧
    ExtractJSON (cs "\x7b\"m\":\",\x7d\"\x7d") =
      (cs "\x7b\"m\":\"\x7d\"\x7d", none) ∧
    ¬ExtractJSON (cs "\x7b\"m\":\",\x7d\"\x7d") =
      (cs "\x7b\"m\":\",\x7d\"\x7d", none) := by
  refine ⟨by decide, by decide, by decide, by decide⟩

/-! ## The Action Dispatcher (`internal/agent`, `agent.go`)

`Agent.ExecuteCommand` switches on the tool name and calls one
handler; every handler returns a `string`.  The handlers touch the
file system, the network and git, so they are abstracted into an
environment of total functions from the decoded argument map to the
returned string; the dispatch structure itself is translated from the
source. -/

/-- The tool handlers of `Agent` (`agent.go`), abstracted over their
effects: each is a total function from the argument map to the string
it returns to the LLM. -/
structure AgentEnv where
  handleWriteFile : List (List Char × GoJson) → List Char
  handleReadFile : List (List Char × GoJson) → List Char
  handleReadAllFiles : List (List Char × GoJson) → List Char
  handleListFiles : List (List Char × GoJson) → List Char
  handleDeleteFile : List (List Char × GoJson) → List Char
  handleAppendFile : List (List Char × GoJson) → List Char
  handleGit : List (List Char × GoJson) → List Char
  handleWebSearch : List (List Char × GoJson) → List Char
  handleVisitURL : List (List Char × GoJson) → List Char

/-- Go `Agent.ExecuteCommand` (`agent.go:29-61`): empty tool name is
an explicit no-op, `respond` only logs, unrecognised names produce the
`Unknown command` string. -/
def ExecuteCommand (env : AgentEnv) (toolName : List Char)
    (input : List (List Char × GoJson)) : List Char :=
  if toolName = [] then []
  else if toolName = cs "write_file" then env.handleWriteFile input
  else if toolName = cs "read_file" then env.handleReadFile input
  else if toolName = cs "read_all_files" then env.handleReadAllFiles input
  else if toolName = cs "list_files" then env.handleListFiles input
  else if toolName = cs "delete_file" then env.handleDeleteFile input
  else if toolName = cs "append_file" then env.handleAppendFile input
  else if toolName = cs "git" then env.handleGit input
  else if toolName = cs "web_search" then env.handleWebSearch input
  else if toolName = cs "visit_url" then env.handleVisitURL input
  else if toolName = cs "respond" then []
  else cs "Unknown command: " ++ toolName

/-- A handler that returns the empty string on every input. -/
def silentHandler (input : List (List Char × GoJson)) : List Char := []

/-- The silent environment, used to observe the dispatcher itself. -/
def silentAgent : AgentEnv :=
  ⟨silentHandler, silentHandler, silentHandler, silentHandler, silentHandler,
   silentHandler, silentHandler, silentHandler, silentHandler⟩

/-- Claim C9 (amended): for every argument map and every *non-empty*
tool name that is none of the nine handled tools and not `respond`,
`ExecuteCommand` returns the descriptive `Unknown command: <name>`
string; the dispatcher and all handlers are total functions into
strings.  (The original claim fails for the empty tool name, which is
dropped silently.) -/
theorem executeCommand_unknown (env : AgentEnv) (toolName : List Char)
    (input : List (List Char × GoJson))
    (hne : ¬toolName = [])
    (hn1 : ¬toolName = cs "write_file")
    (hn2 : ¬toolName = cs "read_file")
    (hn3 : ¬toolName = cs "read_all_files")
    (hn4 : ¬toolName = cs "list_files")
    (hn5 : ¬toolName = cs "delete_file")
    (hn6 : ¬toolName = cs "append_file")
    (hn7 : ¬toolName = cs "git")
    (hn8 : ¬toolName = cs "web_search")
    (hn9 : ¬toolName = cs "visit_url")
    (hn10 : ¬toolName = cs "respond") :
    ExecuteCommand env toolName input = cs "Unknown command: " ++ toolName := by
  unfold ExecuteCommand
  rw [if_neg hne, if_neg hn1, if_neg hn2, if_neg hn3, if_neg hn4, if_neg hn5,
    if_neg hn6, if_neg hn7, if_neg hn8, if_neg hn9, if_neg hn10]

/-- Witness: a concrete unsupported tool name yields the `Unknown
command` string. -/
theorem executeCommand_unknown_witness :
    ExecuteCommand silentAgent (cs "frobnicate") [] =
      cs "Unknown command: " ++ cs "frobnicate" :=
  executeCommand_unknown silentAgent (cs "frobnicate") []
    (by decide) (by decide) (by decide) (by decide) (by decide) (by decide)
    (by decide) (by decide) (by decide) (by decide) (by decide)

/-- Counterexample to claim C9 as stated: the empty tool name is not
one of the supported tools, yet it is dropped silently — the
dispatcher returns the empty string, not a descriptive `Unknown
command` message. -/
theorem executeCommand_unknown_cex :
    ExecuteCommand silentAgent [] [] = [] ∧
    ¬ExecuteCommand silentAgent [] [] = cs "Unknown command: " ++ ([] : List Char) := by
  exact ⟨rfl, by decide⟩

/-- Claim C10: for every handler environment and every argument map,
`ExecuteCommand` with the empty tool name returns the empty string
without consulting any handler: the result is the same for every
environment, so no handler is dispatched and no `Unknown command`
message is produced. -/
theorem executeCommand_empty_noop (env : AgentEnv)
    (input : List (List Char × GoJson)) :
    ExecuteCommand env [] input = [] := rfl

/-! ## The Streaming Client (`internal/ollama/ollama_client.go`)

`StartStream` runs a goroutine that sends values on the `stream`
channel.  The network and the JSON decoder are abstracted into a
setup outcome and a script of decoder results; the events sent on the
channel are collected into a list in send order.  The stats string is
wall-clock dependent and passed as a parameter. -/

/-- Go `types.FunctionCall`. -/
structure FunctionCallV where
  name : List Char
  arguments : List (List Char × GoJson)

/-- Go `types.ToolCall`. -/
structure ToolCallV where
  function : FunctionCallV

/-- Go `types.Message`. -/
structure MessageV where
  role : List Char
  content : List Char
  displayContent : List Char
  toolCalls : List ToolCallV
  isError : Bool

/-- The zero value of `types.Message`. -/
def zeroMessage : MessageV := ⟨[], [], [], [], false⟩

/-- Go `types.ChatResponse` (eval count unused by the claims). -/
structure ChatResponseV where
  message : MessageV
  done : Bool

/-- One result of `decoder.Decode` in the stream loop. -/
inductive DecodeStep where
  | deof : DecodeStep
  | derr : DecodeStep
  | dresp (r : ChatResponseV) : DecodeStep

/-- Outcome of the marshalling/request/connect phase of
`StartStream`. -/
inductive SetupOutcome where
  | marshalErr : SetupOutcome
  | newReqErr : SetupOutcome
  | httpErr : SetupOutcome
  | connected (script : List DecodeStep) : SetupOutcome

/-- An event sent on the `stream` channel. -/
inductive StreamEv where
  | errorEv : StreamEv
  | chunkEv (content : List Char) : StreamEv
  | doneEv (stats : List Char) (finalMessage : MessageV) : StreamEv

/-- The decode loop of `StartStream`
(`internal/ollama/ollama_client.go:74-105`): events sent inside the
loop, plus the accumulated message.  An empty script corresponds to a
decoder that never returns, so no further events are modelled. -/
def streamLoop : List DecodeStep → MessageV → (List StreamEv × MessageV)
  | [], acc => ([], acc)
  | .deof :: _, acc => ([], acc)
  | .derr :: _, acc => ([.errorEv], acc)
  | .dresp r :: rest, acc =>
    let evs : List StreamEv :=
      if r.message.content = [] then [] else [.chunkEv r.message.content]
    let acc' : MessageV :=
      { role := if acc.role = [] then r.message.role else acc.role,
        content := acc.content ++ r.message.content,
        displayContent := acc.displayContent,
        toolCalls := acc.toolCalls ++ r.message.toolCalls,
        isError := acc.isError }
    if r.done then (evs, acc')
    else
      let p := streamLoop rest acc'
      (evs ++ p.1, p.2)

/-- Go `OllamaClient.StartStream`
(`internal/ollama/ollama_client.go:34-113`): the full sequence of
events sent on the `stream` channel.  Setup failures send a single
error; otherwise the loop events are followed unconditionally by the
final `StreamDoneMsg`. -/
def StartStream (setup : SetupOutcome) (stats : List Char) : List StreamEv :=
  match setup with
  | .marshalErr => [.errorEv]
  | .newReqErr => [.errorEv]
  | .httpErr => [.errorEv]
  | .connected script =>
    let p := streamLoop script zeroMessage
    p.1 ++ [.doneEv stats p.2]

/-- The event shape asserted by the spec: zero or more chunks
followed by exactly one terminal event. -/
def chunksThenTerminal : List StreamEv → Bool
  | [.errorEv] => true
  | [.doneEv _ _] => true
  | .chunkEv _ :: rest => chunksThenTerminal rest
  | _ => false

/-- The loop events are chunks, optionally ending in one error. -/
theorem streamLoop_shape : ∀ (script : List DecodeStep) (acc : MessageV),
    (∃ l : List (List Char), (streamLoop script acc).1 = l.map StreamEv.chunkEv) ∨
    (∃ l : List (List Char), (streamLoop script acc).1 =
      l.map StreamEv.chunkEv ++ [StreamEv.errorEv]) := by
  intro script
  induction script with
  | nil => intro acc; exact Or.inl ⟨[], rfl⟩
  | cons s rest ih =>
    intro acc
    cases s with
    | deof => exact Or.inl ⟨[], rfl⟩
    | derr => exact Or.inr ⟨[], rfl⟩
    | dresp r =>
      rw [streamLoop]
      dsimp only
      by_cases hd : r.done = true
      · rw [if_pos hd]
        by_cases hc : r.message.content = []
        · rw [if_pos hc]
          exact Or.inl ⟨[], rfl⟩
        · rw [if_neg hc]
          exact Or.inl ⟨[r.message.content], rfl⟩
      · rw [if_neg hd]
        rcases ih (MessageV.mk (if acc.role = [] then r.message.role else acc.role)
            (acc.content ++ r.message.content) acc.displayContent
            (acc.toolCalls ++ r.message.toolCalls) acc.isError) with ⟨l, hl⟩ | ⟨l, hl⟩
        · refine Or.inl ?_
          by_cases hc : r.message.content = []
          · rw [if_pos hc]
            exact ⟨l, by simp [hl]⟩
          · rw [if_neg hc]
            exact ⟨r.message.content :: l, by simp [hl]⟩
        · refine Or.inr ?_
          by_cases hc : r.message.content = []
          · rw [if_pos hc]
            exact ⟨l, by simp [hl]⟩
          · rw [if_neg hc]
            exact ⟨r.message.content :: l, by simp [hl]⟩

/-- Claim C1 (amended): the events sent on the stream channel are
either a single setup error, or zero or more content chunks followed
by a terminal `StreamDoneMsg` — but when decoding fails mid-stream the
error event is *not* terminal: the client still sends the
`StreamDoneMsg` after it, so the sequence ends with an error event
immediately followed by a done event. -/
theorem startStream_event_shape (setup : SetupOutcome) (stats : List Char) :
    StartStream setup stats = [StreamEv.errorEv] ∨
    (∃ (l : List (List Char)) (m : MessageV), StartStream setup stats =
      l.map StreamEv.chunkEv ++ [StreamEv.doneEv stats m]) ∨
    (∃ (l : List (List Char)) (m : MessageV), StartStream setup stats =
      l.map StreamEv.chunkEv ++ [StreamEv.errorEv, StreamEv.doneEv stats m]) := by
  cases setup with
  | marshalErr => exact Or.inl rfl
  | newReqErr => exact Or.inl rfl
  | httpErr => exact Or.inl rfl
  | connected script =>
    rcases streamLoop_shape script zeroMessage with ⟨l, hl⟩ | ⟨l, hl⟩
    · refine Or.inr (Or.inl ⟨l, (streamLoop script zeroMessage).2, ?_⟩)
      show (streamLoop script zeroMessage).1 ++ _ = _
      rw [hl]
    · refine Or.inr (Or.inr ⟨l, (streamLoop script zeroMessage).2, ?_⟩)
      show (streamLoop script zeroMessage).1 ++ _ = _
      rw [hl]
      simp

/-- Counterexample to claim C1 as stated: when the first decode fails,
the client sends the error event and then still sends a
`StreamDoneMsg`, so the error is not terminal and the sequence is not
chunks followed by exactly one terminal event. -/
theorem startStream_error_then_done_cex :
    StartStream (SetupOutcome.connected [DecodeStep.derr]) [] =
      [StreamEv.errorEv, StreamEv.doneEv [] zeroMessage] ∧
    chunksThenTerminal
      (StartStream (SetupOutcome.connected [DecodeStep.derr]) []) = false := by
  exact ⟨rfl, rfl⟩

/-! ## Producer/consumer interleavings of the chunk stream (claim C4)

The producer is the `StartStream` goroutine sending `N` content
chunks followed by one `StreamDoneMsg` (`wg.Add(1)` before each chunk
send); the consumer is the TUI update loop, which receives messages
from the channel in FIFO order one at a time (`waitForStream`), calls
`wg.Done()` in the `StreamChunkMsg` handler and `wg.Wait()` at the top
of the `StreamDoneMsg` handler.  The done message is enqueued after
every chunk, so the channel is a chunk queue with an optional trailing
done marker; `wg.Wait` is the guard of the done-handling
transition. -/

/-- Joint state of producer, channel, wait group and consumer. -/
structure PCState where
  pending : List (List Char)
  qchunks : List (List Char)
  qdone : Bool
  wg : Nat
  processed : List (List Char)
  doneSent : Bool
  doneHandled : Bool

/-- Initial state: all chunks unsent, channel empty. -/
def pcInit (cl : List (List Char)) : PCState :=
  ⟨cl, [], false, 0, [], false, false⟩

/-- One transition of the producer/consumer system. -/
inductive PCStep : PCState → PCState → Prop where
  | sendChunk (c : List Char) (rest : List (List Char)) (s : PCState)
      (h : s.pending = c :: rest) :
      PCStep s ⟨rest, s.qchunks ++ [c], s.qdone, s.wg + 1, s.processed,
        s.doneSent, s.doneHandled⟩
  | sendDone (s : PCState) (h1 : s.pending = []) (h2 : s.doneSent = false) :
      PCStep s ⟨s.pending, s.qchunks, true, s.wg, s.processed, true,
        s.doneHandled⟩
  | recvChunk (c : List Char) (rest : List (List Char)) (s : PCState)
      (h : s.qchunks = c :: rest) :
      PCStep s ⟨s.pending, rest, s.qdone, s.wg - 1, s.processed ++ [c],
        s.doneSent, s.doneHandled⟩
  | recvDone (s : PCState) (h1 : s.qchunks = []) (h2 : s.qdone = true)
      (h3 : s.wg = 0) (h4 : s.doneHandled = false) :
      PCStep s ⟨s.pending, s.qchunks, s.qdone, s.wg, s.processed, s.doneSent,
        true⟩

/-- States reachable from the initial state for a chunk list. -/
inductive PCReach (cl : List (List Char)) : PCState → Prop where
  | init : PCReach cl (pcInit cl)
  | step {a b : PCState} : PCReach cl a → PCStep a b → PCReach cl b

/-- The inductive invariant of the chunk pipeline. -/
theorem pcInvariant (cl : List (List Char)) (s : PCState)
    (h : PCReach cl s) :
    s.processed ++ s.qchunks ++ s.pending = cl ∧
    s.wg = s.qchunks.length ∧
    (s.doneSent = true → s.pending = []) ∧
    (s.qdone = true → s.doneSent = true) ∧
    (s.doneHandled = true → s.doneSent = true) ∧
    (s.doneHandled = true → s.processed = cl ∧ s.wg = 0) := by
  induction h with
  | init => simp [pcInit]
  | step hreach hstep ih =>
    obtain ⟨i1, i2, i3, i4, i5, i6⟩ := ih
    cases hstep with
    | sendChunk c rest t ht =>
      refine ⟨?_, ?_, ?_, i4, i5, ?_⟩
      · rw [ht] at i1
        simp only at i1 ⊢
        rw [← i1]
        simp
      · simp [i2]
      · intro hds
        simp only at hds
        rw [i3 hds] at ht
        cases ht
      · intro hdh
        simp only at hdh
        rw [i3 (i5 hdh)] at ht
        cases ht
    | sendDone t h1 h2 =>
      exact ⟨by simpa using i1, i2, fun _ => h1, fun _ => rfl, fun _ => rfl,
        fun hdh => i6 hdh⟩
    | recvChunk c rest t ht =>
      refine ⟨?_, ?_, i3, i4, i5, ?_⟩
      · rw [ht] at i1
        simp only at i1 ⊢
        rw [← i1]
        simp
      · rw [ht] at i2
        simp only at i2 ⊢
        simp [i2]
      · intro hdh
        simp only at hdh
        obtain ⟨-, h0⟩ := i6 hdh
        rw [i2, ht] at h0
        simp at h0
    | recvDone t h1 h2 h3 h4 =>
      refine ⟨i1, i2, i3, i4, fun _ => i4 h2, fun _ => ⟨?_, by simpa using h3⟩⟩
      simp only
      rw [← i1, h1, i3 (i4 h2)]
      simp

/-- Claim C4: in every reachable interleaving of the chunk stream, the
orchestrator has processed exactly a prefix of the chunks in emission
order (processed ++ in-flight ++ unsent reconstructs the stream), the
wait-group counter equals the number of chunks sent but not yet
acknowledged (every `wg.Add(1)` is matched by the handler's
`wg.Done()`), and once the done handler has passed its `wg.Wait()`
barrier all chunks have been processed in emission order and the
counter is zero. -/
theorem streamChunk_order_barrier (cl : List (List Char)) (s : PCState)
    (h : PCReach cl s) :
    s.processed ++ s.qchunks ++ s.pending = cl ∧
    s.wg = s.qchunks.length ∧
    (s.doneHandled = true → s.processed = cl ∧ s.wg = 0) := by
  obtain ⟨i1, i2, -, -, -, i6⟩ := pcInvariant cl s h
  exact ⟨i1, i2, i6⟩

/-- The final state of a two-chunk demonstration run. -/
def pcDemoFinal : PCState :=
  ⟨[], [], true, 0, [cs "a", cs "b"], true, true⟩

/-- Witness: a concrete complete run over two chunks reaches the
done-handled state having processed both chunks in order with the
wait group at zero. -/
theorem streamChunk_order_barrier_witness :
    PCReach [cs "a", cs "b"] pcDemoFinal ∧
    (pcDemoFinal.processed = [cs "a", cs "b"] ∧ pcDemoFinal.wg = 0) := by
  have h0 : PCReach [cs "a", cs "b"] (pcInit [cs "a", cs "b"]) := PCReach.init
  have h1 := PCReach.step h0 (PCStep.sendChunk (cs "a") [cs "b"] _ rfl)
  have h2 := PCReach.step h1 (PCStep.recvChunk (cs "a") [] _ rfl)
  have h3 := PCReach.step h2 (PCStep.sendChunk (cs "b") [] _ rfl)
  have h4 := PCReach.step h3 (PCStep.recvChunk (cs "b") [] _ rfl)
  have h5 := PCReach.step h4 (PCStep.sendDone _ rfl rfl)
  have h6 := PCReach.step h5 (PCStep.recvDone _ rfl rfl rfl rfl)
  have hr : PCReach [cs "a", cs "b"] pcDemoFinal := h6
  exact ⟨hr, (streamChunk_order_barrier [cs "a", cs "b"] pcDemoFinal hr).2.2 rfl⟩

/-! ## The TUI orchestrator (`internal/tui`, `tui.go`)

The model state is restricted to the fields the claims observe; the
viewport, textarea, spinner and logger render output only.  Agent
handlers run through `AgentEnv`; the commands dispatched to the agent
are collected into a list. -/

/-- Go `types.Action`. -/
structure ActionV where
  tool : List Char
  input : List (List Char × GoJson)

/-- The claim-relevant fields of `tui.Model`. -/
structure ModelSt where
  messages : List MessageV
  history : List (List Char)
  alwaysAllow : List (List Char × Bool)
  yoloMode : Bool
  permissionRequest : Option ActionV
  sending : Bool
  streaming : Bool
  isJsonResponse : Bool
  stats : List Char
  err : Option (List Char)
  cancelSet : Bool

/-- Result of an update step: the new model plus the commands
dispatched to `agent.ExecuteCommand`. -/
structure StepOut where
  model : ModelSt
  agentCalls : List ActionV

/-- Go map read `m[k]` for a `map[string]bool` (zero value `false`
when absent). -/
def lookupBool : List (List Char × Bool) → List Char → Bool
  | [], _ => false
  | (k, v) :: rest, key => if k = key then v else lookupBool rest key

/-- Go map read for the decoded argument map. -/
def mapGet : List (List Char × GoJson) → List Char → Option GoJson
  | [], _ => none
  | (k, v) :: rest, key => if k = key then some v else mapGet rest key

/-- Go `input[k].(string)`: lookup plus string type assertion. -/
def getStr (input : List (List Char × GoJson)) (key : List Char) :
    Option (List Char) :=
  match mapGet input key with
  | some (.strv s) => some s
  | _ => none

/-- `m.messages[len(m.messages)-1].Content = x` (the trailing message
always exists when the handlers run; an empty history is kept
unchanged). -/
def setLastContent : List MessageV → List Char → List MessageV
  | [], _ => []
  | [msg], x => [{ msg with content := x }]
  | msg :: rest, x => msg :: setLastContent rest x

/-- `m.messages[len(m.messages)-1].Content += x`. -/
def appendLastContent : List MessageV → List Char → List MessageV
  | [], _ => []
  | [msg], x => [{ msg with content := msg.content ++ x }]
  | msg :: rest, x => msg :: appendLastContent rest x

/-- Lines 369-375 of the `StreamDoneMsg` handler: replace the trailing
message's content by the structured tool call. -/
def setLastToolCall : List MessageV → ToolCallV → List MessageV
  | [], _ => []
  | [msg], tc => [{ msg with toolCalls := [tc], content := [] }]
  | msg :: rest, tc => msg :: setLastToolCall rest tc

/-- The content of the trailing message. -/
def lastContent (msgs : List MessageV) : List Char :=
  match msgs.getLast? with
  | some m => m.content
  | none => []

/-- Go `strings.Title` (ASCII): upper-case every letter that follows a
non-letter. -/
def goTitleAux : Bool → List Char → List Char
  | _, [] => []
  | prev, c :: t => (if prev then c else c.toUpper) :: goTitleAux c.isAlpha t

/-- Go `strings.Title` on ASCII identifiers. -/
def goTitle (s : List Char) : List Char := goTitleAux false s

/-- Go `fmt.Sprintf("%q", s)` restricted to the printable characters
and common escapes that occur in tool arguments. -/
def goQuote (s : List Char) : List Char :=
  '"' :: (s.map (fun c =>
    if c = '"' then ['\\', '"']
    else if c = '\\' then ['\\', '\\']
    else if c = '\n' then ['\\', 'n']
    else if c = '\t' then ['\\', 't']
    else if c = '\r' then ['\\', 'r']
    else [c])).flatten ++ ['"']

/-- The value formatting switch of `renderCommandDetails`: `%q` for
strings, `%t` for booleans, `%v` otherwise (the `%v` text of numbers
and composite values is abstracted to the parsed literal / a
placeholder; no claim observes it). -/
def goFmtVal : GoJson → List Char
  | .strv s => goQuote s
  | .boolv true => cs "true"
  | .boolv false => cs "false"
  | .numv lit => lit
  | .nullv => cs "<nil>"
  | .arrv _ => cs "<slice>"
  | .objv _ => cs "<map>"

/-- The argument lines of `renderCommandDetails` (`tui.go:782-805`),
iterating the decoded argument map; the `content` field of
`write_file`/`append_file` is skipped. -/
def renderInputs (tool : List Char) : List (List Char × GoJson) → List Char
  | [] => []
  | (k, v) :: rest =>
    if (tool = cs "write_file" || tool = cs "append_file") && k = cs "content"
    then renderInputs tool rest
    else goTitle k ++ cs ": " ++ goFmtVal v ++ '\n' :: renderInputs tool rest

/-- Go `Model.renderCommandDetails` (`tui.go:782-806`). -/
def renderCommandDetails (action : ActionV) : List Char :=
  cs "Tool: " ++ action.tool ++ '\n' :: renderInputs action.tool action.input

/-- The message extraction of the `respond` branch of
`executeAndRespond`: a string, or a string array joined with
newlines. -/
def joinNl : List (List Char) → List Char
  | [] => []
  | [x] => x
  | x :: y :: xs => x ++ '\n' :: joinNl (y :: xs)

/-- `input["message"]` as a string or joined string array. -/
def respondMessage (input : List (List Char × GoJson)) : List Char :=
  match mapGet input (cs "message") with
  | some (.strv s) => s
  | some (.arrv items) =>
    joinNl (items.filterMap (fun v => match v with
      | .strv s => some s
      | _ => none))
  | _ => []

/-- Go `Model.executeAndRespond` (`tui.go:434-485`): `respond` only
rewrites the trailing message; other tools dispatch to
`agent.ExecuteCommand`, append the result as a `tool` message and,
when the result is non-empty, start a follow-up stream with a fresh
assistant placeholder. -/
def executeAndRespond (env : AgentEnv) (st : ModelSt) (tool : List Char)
    (input : List (List Char × GoJson)) : StepOut :=
  if tool = cs "respond" then
    let message := respondMessage input
    let st' := if message = [] then st
      else { st with messages := setLastContent st.messages message }
    ⟨st', []⟩
  else
    let res := ExecuteCommand env tool input
    let st1 := { st with
      messages := st.messages ++ [⟨cs "tool", res, [], [], false⟩] }
    if res = [] then ⟨st1, [⟨tool, input⟩]⟩
    else
      ⟨{ st1 with
          cancelSet := true, sending := true, streaming := true,
          messages := st1.messages ++ [⟨cs "assistant", [], [], [], false⟩] },
        [⟨tool, input⟩]⟩

/-- `toolName == "write_file" || toolName == "append_file" ||
toolName == "delete_file"` (`tui.go:378`). -/
def destructiveTool (t : List Char) : Bool :=
  t = cs "write_file" || t = cs "append_file" || t = cs "delete_file"

/-- `fmt.Sprintf("%s:%s", toolName, path)` when the input has a string
path, else the zero value (`tui.go:380-383`). -/
def permissionKeyOf (action : ActionV) : List Char :=
  match getStr action.input (cs "path") with
  | some path => action.tool ++ ':' :: path
  | none => []

/-- Lines 368-393 of `Model.Update` (`StreamDoneMsg` case): record the
structured tool call on the trailing message, then run the permission
gate: a destructive tool without an always-allow grant and with yolo
mode off only records the pending permission request; otherwise the
action is handed to `executeAndRespond` at once. -/
def handleLlmAction (env : AgentEnv) (st : ModelSt) (action : ActionV) :
    StepOut :=
  let st1 := { st with
    messages := setLastToolCall st.messages ⟨⟨action.tool, action.input⟩⟩ }
  if destructiveTool action.tool &&
      !lookupBool st1.alwaysAllow (permissionKeyOf action) && !st1.yoloMode then
    ⟨{ st1 with permissionRequest := some action }, []⟩
  else executeAndRespond env st1 action.tool action.input

/-- The permission-pending branch of `Model.Update`
(`tui.go:190-224`): a lower-cased `a`/`y`/`n` answers the prompt;
other keys are ignored. -/
def updatePermission (env : AgentEnv) (st : ModelSt) (key : List Char) :
    StepOut :=
  match st.permissionRequest with
  | none => ⟨st, []⟩
  | some action =>
    if lowerStr key = cs "a" then
      executeAndRespond env { st with permissionRequest := none }
        action.tool action.input
    else if lowerStr key = cs "y" then
      let st1 := match getStr action.input (cs "path") with
        | some path => { st with
            alwaysAllow := (action.tool ++ ':' :: path, true) :: st.alwaysAllow }
        | none => st
      executeAndRespond env { st1 with permissionRequest := none }
        action.tool action.input
    else if lowerStr key = cs "n" then
      ⟨{ st with
          messages := setLastContent st.messages
            (cs "Command denied by user:\n\n" ++ renderCommandDetails action),
          permissionRequest := none }, []⟩
    else ⟨st, []⟩

/-- The `types.ErrorMsg` case of `Model.Update` (`tui.go:400-405`):
cancellation errors are swallowed, others stop the send and set the
error banner. -/
def updateError (st : ModelSt) (errText : List Char) : ModelSt :=
  if containsSub errText (cs "context canceled") then st
  else { st with sending := false, err := some errText }

/-- The `/stop` path of `Model.handleEnter` (`tui.go:562-582`): the
input joins the history (capped at five entries), the context is
cancelled, the flags are cleared, and when the trailing message is an
assistant message the cancellation marker is appended to its
content. -/
def handleStop (st : ModelSt) : ModelSt :=
  let st0 := { st with history := (cs "/stop" :: st.history).take 5 }
  { st0 with
    streaming := false, sending := false,
    messages :=
      match st0.messages.getLast? with
      | some m => if m.role = cs "assistant" then
          appendLastContent st0.messages (cs "\n\n--- Canceled ---")
        else st0.messages
      | none => st0.messages }

/-- `executeAndRespond` never touches the pending permission
request. -/
theorem executeAndRespond_pr (env : AgentEnv) (st : ModelSt) (tool : List Char)
    (input : List (List Char × GoJson)) :
    (executeAndRespond env st tool input).model.permissionRequest =
      st.permissionRequest := by
  unfold executeAndRespond
  dsimp only
  split
  · split <;> rfl
  · split <;> rfl

/-- Claim C2: with a pending permission state at `Idle`, a decoded
tool call whose name is destructive (`write_file`, `append_file`,
`delete_file`), whose `(tool, path)` key has no always-allow grant and
with yolo mode off makes the gate record the pending permission
request before any dispatch (no agent command runs); a tool call with
any other name never enters the pending-permission state and is handed
to `executeAndRespond` immediately. -/
theorem permission_gate (env : AgentEnv) (st : ModelSt) (action : ActionV) :
    (destructiveTool action.tool = true →
      lookupBool st.alwaysAllow (permissionKeyOf action) = false →
      st.yoloMode = false →
      (handleLlmAction env st action).model.permissionRequest = some action ∧
      (handleLlmAction env st action).agentCalls = []) ∧
    (destructiveTool action.tool = false →
      handleLlmAction env st action =
        executeAndRespond env
          { st with messages :=
              setLastToolCall st.messages ⟨⟨action.tool, action.input⟩⟩ }
          action.tool action.input ∧
      (handleLlmAction env st action).model.permissionRequest =
        st.permissionRequest) := by
  constructor
  · intro h1 h2 h3
    unfold handleLlmAction
    dsimp only
    rw [if_pos (by simp [h1, h2, h3])]
    exact ⟨rfl, rfl⟩
  · intro h1
    have hneq : handleLlmAction env st action =
        executeAndRespond env
          { st with messages :=
              setLastToolCall st.messages ⟨⟨action.tool, action.input⟩⟩ }
          action.tool action.input := by
      unfold handleLlmAction
      dsimp only
      rw [if_neg (by simp [h1])]
    refine ⟨hneq, ?_⟩
    rw [hneq, executeAndRespond_pr]

/-- Witness: a concrete `delete_file` call is gated (pending request
recorded, no dispatch) while a concrete `read_file` call passes
through with the pending-permission state untouched. -/
theorem permission_gate_witness :
    ((handleLlmAction silentAgent
        ⟨[⟨cs "assistant", cs "x", [], [], false⟩], [], [], false, none,
          false, false, false, [], none, false⟩
        ⟨cs "delete_file", [(cs "path", GoJson.strv (cs "notes.txt"))]⟩
      ).model.permissionRequest =
        some ⟨cs "delete_file", [(cs "path", GoJson.strv (cs "notes.txt"))]⟩ ∧
      (handleLlmAction silentAgent
        ⟨[⟨cs "assistant", cs "x", [], [], false⟩], [], [], false, none,
          false, false, false, [], none, false⟩
        ⟨cs "delete_file", [(cs "path", GoJson.strv (cs "notes.txt"))]⟩
      ).agentCalls = []) ∧
    (handleLlmAction silentAgent
        ⟨[⟨cs "assistant", cs "x", [], [], false⟩], [], [], false, none,
          false, false, false, [], none, false⟩
        ⟨cs "read_file", [(cs "path", GoJson.strv (cs "notes.txt"))]⟩
      ).model.permissionRequest = none := by
  constructor
  · exact (permission_gate silentAgent
      ⟨[⟨cs "assistant", cs "x", [], [], false⟩], [], [], false, none,
        false, false, false, [], none, false⟩
      ⟨cs "delete_file", [(cs "path", GoJson.strv (cs "notes.txt"))]⟩).1
      (by decide) rfl rfl
  · exact (permission_gate silentAgent
      ⟨[⟨cs "assistant", cs "x", [], [], false⟩], [], [], false, none,
        false, false, false, [], none, false⟩
      ⟨cs "read_file", [(cs "path", GoJson.strv (cs "notes.txt"))]⟩).2
      (by decide) |>.2

/-- A pattern is found at the start of the searched string. -/
theorem litAt_self (pat r : List Char) : litAt pat (pat ++ r) = true := by
  induction pat with
  | nil => rfl
  | cons p ps ih => simp [litAt, ih]

/-- `containsSub` finds a leading occurrence. -/
theorem containsSub_at (pat r : List Char) : containsSub (pat ++ r) pat = true := by
  cases pat with
  | nil =>
    cases r with
    | nil => rfl
    | cons c t => simp [containsSub, litAt]
  | cons p ps =>
    rw [List.cons_append, containsSub]
    have hl := litAt_self (p :: ps) r
    rw [List.cons_append] at hl
    simp [hl]

/-- `containsSub` survives prepending. -/
theorem containsSub_suffix (x l pat : List Char) (h : containsSub l pat = true) :
    containsSub (x ++ l) pat = true := by
  induction x with
  | nil => simpa
  | cons c t ih =>
    rw [List.cons_append, containsSub]
    simp [ih]

/-- The `Path` line appears in the rendered argument lines whenever
the input carries a string path. -/
theorem renderInputs_path (tool : List Char) :
    ∀ (input : List (List Char × GoJson)) (path : List Char),
    mapGet input (cs "path") = some (GoJson.strv path) →
    containsSub (renderInputs tool input)
      (cs "Path: " ++ goQuote path ++ ['\n']) = true := by
  intro input
  induction input with
  | nil =>
    intro path h
    simp [mapGet] at h
  | cons kv rest ih =>
    obtain ⟨k, v⟩ := kv
    intro path h
    rw [mapGet] at h
    by_cases hk : k = cs "path"
    · rw [if_pos hk, Option.some.injEq] at h
      subst hk
      subst h
      rw [renderInputs]
      rw [if_neg (by simp; exact fun _ => by decide)]
      have heq : goTitle (cs "path") ++ cs ": " ++ goFmtVal (GoJson.strv path) ++
          '\n' :: renderInputs tool rest =
          (cs "Path: " ++ goQuote path ++ ['\n']) ++ renderInputs tool rest := by
        rw [show goTitle (cs "path") = cs "Path" from by decide]
        rw [show goFmtVal (GoJson.strv path) = goQuote path from rfl]
        rw [show (cs "Path" : List Char) ++ cs ": " = cs "Path: " from by decide]
        simp
      rw [heq]
      exact containsSub_at _ _
    · rw [if_neg hk] at h
      rw [renderInputs]
      split
      · exact ih path h
      · exact containsSub_suffix _ _ _
          (by
            rw [show (('\n' : Char) :: renderInputs tool rest) =
              ['\n'] ++ renderInputs tool rest from rfl]
            exact containsSub_suffix _ _ _ (ih path h))

/-- The pieces of the dropLast helper: overwriting only the trailing
message leaves the rest of the history unchanged. -/
theorem setLastContent_dropLast (x : List Char) :
    ∀ (msgs : List MessageV),
    (setLastContent msgs x).dropLast = msgs.dropLast
  | [] => rfl
  | [m] => rfl
  | m :: m2 :: rest => by
    have ih := setLastContent_dropLast x (m2 :: rest)
    rcases hs : setLastContent (m2 :: rest) x with _ | ⟨a, b⟩
    · exfalso
      cases rest <;> simp [setLastContent] at hs
    · rw [hs] at ih
      show (m :: setLastContent (m2 :: rest) x).dropLast =
        (m :: m2 :: rest).dropLast
      rw [hs]
      show m :: (a :: b).dropLast = m :: (m2 :: rest).dropLast
      rw [ih]

/-- Claim C5: answering deny (`n`) on a pending permission request
dispatches nothing, returns the gate to `Idle`, leaves the always-allow
map and yolo flag untouched, replaces only the trailing message's
content with the `Command denied by user` notice — which contains the
`Tool:` line and, when the input has a string path, the quoted `Path:`
line — and keeps every other model field and earlier message
unchanged. -/
theorem permission_deny (env : AgentEnv) (st : ModelSt) (action : ActionV)
    (h : st.permissionRequest = some action) :
    (updatePermission env st (cs "n")).agentCalls = [] ∧
    (updatePermission env st (cs "n")).model.permissionRequest = none ∧
    (updatePermission env st (cs "n")).model.alwaysAllow = st.alwaysAllow ∧
    (updatePermission env st (cs "n")).model.yoloMode = st.yoloMode ∧
    (updatePermission env st (cs "n")).model.messages =
      setLastContent st.messages
        (cs "Command denied by user:\n\n" ++ renderCommandDetails action) ∧
    (updatePermission env st (cs "n")).model.messages.dropLast =
      st.messages.dropLast ∧
    containsSub
      (cs "Command denied by user:\n\n" ++ renderCommandDetails action)
      (cs "Tool: " ++ action.tool ++ ['\n']) = true ∧
    (∀ path, getStr action.input (cs "path") = some path →
      containsSub
        (cs "Command denied by user:\n\n" ++ renderCommandDetails action)
        (cs "Path: " ++ goQuote path ++ ['\n']) = true) ∧
    (updatePermission env st (cs "n")).model.sending = st.sending ∧
    (updatePermission env st (cs "n")).model.streaming = st.streaming ∧
    (updatePermission env st (cs "n")).model.err = st.err := by
  have hred : updatePermission env st (cs "n") =
      ⟨{ st with
          messages := setLastContent st.messages
            (cs "Command denied by user:\n\n" ++ renderCommandDetails action),
          permissionRequest := none }, []⟩ := by
    unfold updatePermission
    rw [h]
    dsimp only
    rw [if_neg (by decide), if_neg (by decide), if_pos (by decide)]
  refine ⟨by rw [hred], by rw [hred], by rw [hred], by rw [hred], by rw [hred],
    ?_, ?_, ?_, by rw [hred], by rw [hred], by rw [hred]⟩
  · rw [hred]
    exact setLastContent_dropLast _ st.messages
  · refine containsSub_suffix _ _ _ ?_
    unfold renderCommandDetails
    rw [show (cs "Tool: " ++ action.tool ++
          '\n' :: renderInputs action.tool action.input : List Char) =
        (cs "Tool: " ++ action.tool ++ ['\n']) ++
          renderInputs action.tool action.input from by simp]
    exact containsSub_at _ _
  · intro path hp
    refine containsSub_suffix _ _ _ ?_
    unfold renderCommandDetails
    rw [show (cs "Tool: " ++ action.tool ++
          '\n' :: renderInputs action.tool action.input : List Char) =
        (cs "Tool: " ++ action.tool ++ ['\n']) ++
          renderInputs action.tool action.input from by simp]
    refine containsSub_suffix _ _ _ ?_
    have hm : mapGet action.input (cs "path") = some (GoJson.strv path) := by
      unfold getStr at hp
      rcases hg : mapGet action.input (cs "path") with _ | v
      · rw [hg] at hp
        simp at hp
      · rw [hg] at hp
        cases v <;> simp_all
    exact renderInputs_path action.tool action.input path hm

/-- The concrete pending `delete_file` request of the specification's
denial scenario. -/
def denyAction : ActionV :=
  ⟨cs "delete_file", [(cs "path", GoJson.strv (cs "notes.txt"))]⟩

/-- A model state awaiting a decision on `denyAction`. -/
def denySt : ModelSt :=
  ⟨[⟨cs "assistant", cs "x", [], [], false⟩], [], [], false, some denyAction,
    false, false, false, [], none, false⟩

/-- Witness: denying the concrete `delete_file` request dispatches
nothing, clears the pending request, and the denial notice contains
the `Tool: delete_file` and `Path: "notes.txt"` lines. -/
theorem permission_deny_witness :
    (updatePermission silentAgent denySt (cs "n")).agentCalls = [] ∧
    (updatePermission silentAgent denySt (cs "n")).model.permissionRequest =
      none ∧
    (updatePermission silentAgent denySt (cs "n")).model.alwaysAllow = [] ∧
    containsSub
      (cs "Command denied by user:\n\n" ++ renderCommandDetails denyAction)
      (cs "Tool: " ++ cs "delete_file" ++ ['\n']) = true ∧
    containsSub
      (cs "Command denied by user:\n\n" ++ renderCommandDetails denyAction)
      (cs "Path: " ++ goQuote (cs "notes.txt") ++ ['\n']) = true := by
  have h := permission_deny silentAgent denySt denyAction rfl
  exact ⟨h.1, h.2.1, h.2.2.1, h.2.2.2.2.2.2.1,
    h.2.2.2.2.2.2.2.1 (cs "notes.txt") rfl⟩

/-- A model state right after natural completion of a stream: the
trailing assistant message holds the final text, no stream is active
and no request is pending. -/
def stopDemoSt : ModelSt :=
  ⟨[⟨cs "assistant", cs "hi", [], [], false⟩], [], [], false, none,
    false, false, false, [], none, true⟩

/-- Claim C6 (code bug): a `context canceled` stream error is indeed
swallowed without setting the error banner, but a stop request is not
idempotent: `/stop` issued after natural completion still appends the
cancellation marker to the trailing assistant message, and issued
twice it appends the marker twice — the handler appends whenever the
trailing message is an assistant message, without checking that a
stream is being cancelled. -/
theorem stop_not_idempotent_bug :
    updateError stopDemoSt
      (cs "Post \"http://localhost:11434/api/chat\": context canceled") =
      stopDemoSt ∧
    lastContent (handleStop stopDemoSt).messages =
      cs "hi" ++ cs "\n\n--- Canceled ---" ∧
    lastContent (handleStop (handleStop stopDemoSt)).messages =
      cs "hi" ++ cs "\n\n--- Canceled ---" ++ cs "\n\n--- Canceled ---" ∧
    ¬handleStop (handleStop stopDemoSt) = handleStop stopDemoSt := by
  refine ⟨rfl, by decide, by decide, ?_⟩
  intro heq
  have hc := congrArg (fun s => lastContent s.messages) heq
  exact absurd hc (by decide)

end PromptCLI
